import Mathlib

/-!
# The queue engine of lab0-c (queue.c)

A shallow embedding of `queue.c`: a singly linked list of text values with head and
tail pointers, used as a FIFO queue, with in-place reversal and merge sort.

* Nodes live in a heap, a map from addresses to `list_ele_t` records. The C null
  pointer is `none`.
* A C string is represented by the list of its bytes before the terminating NUL.
* Every operation returns an `Option`: `none` stands for undefined behaviour (a null
  or dangling pointer is dereferenced) or, for the loops, for exhausted fuel.
* The results of `malloc` are arguments of the operations that allocate.
* `q->size` is a C `int`; it is modelled by an unbounded `Int` (signed overflow is
  undefined in C). Lengths of strings are natural numbers; the one `size_t`
  computation that can wrap, `len - 1` in `q_remove_head`, is taken modulo `2 ^ 64`.
-/

namespace Queue

/-- Address of a list element. -/
abbrev Ptr := Nat

/-- Modelled from the spec: the node type `list_ele_t` is declared in queue.h, which is
not among the sources. A node holds one owned text value and a reference to the next
node (or none, if last). -/
structure list_ele_t where
  value : List Nat
  next : Option Ptr
deriving DecidableEq, Repr

/-- Modelled from the spec: the queue type `queue_t` is declared in queue.h, which is
not among the sources. A queue holds a reference to the first node, a reference to the
last node, and an integer count of live nodes. -/
structure queue_t where
  head : Option Ptr
  tail : Option Ptr
  size : Int
deriving DecidableEq, Repr

/-- The node heap: which addresses hold a live node, and its contents. -/
abbrev Heap := Ptr → Option list_ele_t

/-- Heap update at one address (`none` releases the node). -/
def store (h : Heap) (p : Ptr) (v : Option list_ele_t) : Heap :=
  fun x => if x = p then v else h x

/-- The heap with no live node. -/
def emptyHeap : Heap := fun _ => none

/-! ## C library functions used by queue.c -/

/-- C `strlen`: the number of bytes before the terminating NUL. -/
def strlen (s : List Nat) : Nat := s.length

/-- C `strncmp(a, b, n)`: compares at most `n` bytes as unsigned values and stops at a
NUL; reading a string at its end yields the terminator `0`. -/
def strncmp : List Nat → List Nat → Nat → Int
  | _, _, 0 => 0
  | a, b, n + 1 =>
    let c1 := a.headD 0
    let c2 := b.headD 0
    if c1 ≠ c2 then (c1 : Int) - (c2 : Int)
    else if c1 = 0 then 0
    else strncmp a.tail b.tail n

/-- C `strncpy(sp, src, n)` as the list of byte stores `(index, byte)` it performs on the
destination: exactly `n` bytes, the bytes of `src` and then NUL padding. -/
def strncpy (src : List Nat) (n : Nat) : List (Nat × Nat) :=
  (List.range n).map fun i => (i, src.getD i 0)

/-- The macro `strlcpy(dst, src, sz)`, that is `snprintf(dst, sz, "%s", src)`: the new
string in `dst` (at most `sz - 1` bytes of `src`, then a NUL; nothing is written when
`sz = 0`) and the returned value, the length of `src`. -/
def strlcpy (dst src : List Nat) (sz : Nat) : List Nat × Int :=
  (if sz = 0 then dst else src.take (sz - 1), (src.length : Int))

/-- The contents of a buffer after one byte store; a store outside the buffer does not
change it. -/
def poke (buf : List Nat) (w : Nat × Nat) : List Nat := buf.set w.1 w.2

/-- The contents of a buffer after a sequence of byte stores. -/
def pokeAll (buf : List Nat) (ws : List (Nat × Nat)) : List Nat := ws.foldl poke buf

/-! ## Node and container operations -/

/-- Function `q_new`; `m` tells whether `malloc` succeeded. -/
def q_new (m : Bool) : Option queue_t :=
  if m then some { head := none, tail := none, size := 0 } else none

/-- Function `q_insert_head`. `node` is the result of `malloc(sizeof(list_ele_t))` and
`buf` the result of `malloc(strlen(s) + 1)`: `none` for a null pointer, otherwise the
string that the uninitialised block holds when it is read by `strlen` (the bytes up to
the first NUL found from its start). A block obtained and released within the call is not
part of the returned heap. -/
def q_insert_head (h : Heap) (q : Option queue_t) (s : List Nat)
    (node : Option Ptr) (buf : Option (List Nat)) : Option (Bool × Heap × Option queue_t) :=
  match q with
  | none => some (false, h, none)
  | some qv =>
    match node with
    | none => some (false, h, q)
    | some newh =>
      match buf with
      | none => some (false, h, q)
      | some junk =>
        let r := strlcpy junk s (strlen junk + 1)
        let value := r.1
        let buf_len := r.2
        if buf_len ≥ ((strlen value + 1 : Nat) : Int) ∨ buf_len < 0 then some (false, h, q)
        else
          let h1 := store h newh (some { value := value, next := qv.head })
          let q1 : queue_t := { qv with head := some newh }
          let q2 : queue_t := if q1.size = 0 then { q1 with tail := q1.head } else q1
          some (true, h1, some { q2 with size := q2.size + 1 })

/-- Function `q_insert_tail`; `node` and `buf` are as for `q_insert_head`. -/
def q_insert_tail (h : Heap) (q : Option queue_t) (s : List Nat)
    (node : Option Ptr) (buf : Option (List Nat)) : Option (Bool × Heap × Option queue_t) :=
  match q with
  | none => some (false, h, none)
  | some qv =>
    match node with
    | none => some (false, h, q)
    | some newt =>
      match buf with
      | none => some (false, h, q)
      | some junk =>
        let r := strlcpy junk s (strlen junk + 1)
        let value := r.1
        let buf_len := r.2
        if buf_len ≥ ((strlen value + 1 : Nat) : Int) ∨ buf_len < 0 then some (false, h, q)
        else
          let h1 := store h newt (some { value := value, next := none })
          if qv.size = 0 then
            some (true, h1, some { head := some newt, tail := some newt, size := qv.size + 1 })
          else
            match qv.tail with
            | none => none
            | some t =>
              match h1 t with
              | none => none
              | some tn =>
                let h2 := store h1 t (some { tn with next := some newt })
                some (true, h2, some { qv with tail := some newt, size := qv.size + 1 })

/-- Function `q_remove_head`. `sp` tells whether a buffer was supplied (`sp` is not
null). The last component of the result is the list of byte stores `(index, byte)` made
through `sp`, in program order, the index being the `size_t` offset from `sp`. -/
def q_remove_head (h : Heap) (q : Option queue_t) (sp : Bool) (bufsize : Nat) :
    Option (Bool × Heap × Option queue_t × List (Nat × Nat)) :=
  match q with
  | none => some (false, h, none, [])
  | some qv =>
    if qv.size = 0 then some (false, h, q, [])
    else
      match qv.head with
      | none => none
      | some hp =>
        match h hp with
        | none => none
        | some nd =>
          let writes : List (Nat × Nat) :=
            if sp then
              let len := strlen nd.value + 1
              let len := if len > bufsize then bufsize else len
              strncpy nd.value len ++ [((len + 2 ^ 64 - 1) % 2 ^ 64, 0)]
            else []
          let q1 : queue_t := { qv with head := nd.next, size := qv.size - 1 }
          let q2 : queue_t := if q1.size = 0 then { q1 with tail := none } else q1
          some (true, store h hp none, some q2, writes)

/-- The loop of `q_reverse`, from the state `(cur, prev)`; returns the heap and `prev`. -/
def q_reverse_loop : Nat → Heap → Option Ptr → Option Ptr → Option (Heap × Option Ptr)
  | 0, _, _, _ => none
  | fuel + 1, h, cur, prev =>
    match cur with
    | none => some (h, prev)
    | some c =>
      match h c with
      | none => none
      | some nc => q_reverse_loop fuel (store h c (some { nc with next := prev })) nc.next (some c)

/-- Function `q_reverse`. -/
def q_reverse (fuel : Nat) (h : Heap) (q : Option queue_t) : Option (Heap × Option queue_t) :=
  match q with
  | none => some (h, none)
  | some qv =>
    match q_reverse_loop fuel h qv.head none with
    | none => none
    | some r => some (r.1, some { qv with head := qv.tail, tail := qv.head })

/-! ## Sort subsystem -/

/-- Function `move_node(dst, src)`, the two pointer cells passed by value: returns the
heap after `new->next = *dst`, the new `*dst` and the new `*src`. -/
def move_node (h : Heap) (dst src : Option Ptr) : Option (Heap × Option Ptr × Option Ptr) :=
  match src with
  | none => none
  | some new =>
    match h new with
    | none => none
    | some nd => some (store h new (some { nd with next := dst }), some new, nd.next)

/-- The variable `tail` of `sorted_merge`: the address of the local `dummy`, or a node. -/
inductive TailRef where
  | dummy : TailRef
  | node : Ptr → TailRef
deriving DecidableEq, Repr

/-- Reads `tail->next`; `d` is `dummy.next`. -/
def get_tail_next (h : Heap) (d : Option Ptr) : TailRef → Option (Option Ptr)
  | TailRef.dummy => some d
  | TailRef.node t =>
    match h t with
    | none => none
    | some nt => some nt.next

/-- Writes `tail->next = v`; returns the heap and `dummy.next`. -/
def set_tail_next (h : Heap) (d : Option Ptr) (v : Option Ptr) : TailRef → Option (Heap × Option Ptr)
  | TailRef.dummy => some (h, v)
  | TailRef.node t =>
    match h t with
    | none => none
    | some nt => some (store h t (some { nt with next := v }), d)

/-- One `move_node(&(tail->next), src)` followed by `tail = tail->next`: returns the
heap, `dummy.next`, the new `tail` and the new `*src`. -/
def merge_step (h : Heap) (d : Option Ptr) (tail : TailRef) (src : Option Ptr) :
    Option (Heap × Option Ptr × TailRef × Option Ptr) :=
  match get_tail_next h d tail with
  | none => none
  | some dst =>
    match move_node h dst src with
    | none => none
    | some (h1, dst1, src1) =>
      match set_tail_next h1 d dst1 tail with
      | none => none
      | some (h2, d2) =>
        match get_tail_next h2 d2 tail with
        | none => none
        | some none => none
        | some (some t) => some (h2, d2, TailRef.node t, src1)

/-- The loop of `sorted_merge`, from the state `(dummy.next, tail, a, b)`; returns the
heap and `dummy.next`. -/
def sorted_merge_loop : Nat → Heap → Option Ptr → TailRef → Option Ptr → Option Ptr →
    Option (Heap × Option Ptr)
  | 0, _, _, _, _, _ => none
  | fuel + 1, h, d, tail, a, b =>
    match a, b with
    | none, _ => set_tail_next h d b tail
    | some _, none => set_tail_next h d a tail
    | some pa, some pb =>
      match h pa, h pb with
      | some na, some nb =>
        if strncmp na.value nb.value (strlen nb.value) < 0 then
          match merge_step h d tail a with
          | none => none
          | some (h2, d2, tail2, a2) => sorted_merge_loop fuel h2 d2 tail2 a2 b
        else
          match merge_step h d tail b with
          | none => none
          | some (h2, d2, tail2, b2) => sorted_merge_loop fuel h2 d2 tail2 a b2
      | _, _ => none

/-- Function `sorted_merge`; returns the heap and the head of the merged chain. -/
def sorted_merge (fuel : Nat) (h : Heap) (a b : Option Ptr) : Option (Heap × Option Ptr) :=
  sorted_merge_loop fuel h none TailRef.dummy a b

/-- The loop of `front_back_split`, from the state `(slow, fast)`; returns `slow`. -/
def front_back_split_loop : Nat → Heap → Option Ptr → Option Ptr → Option (Option Ptr)
  | 0, _, _, _ => none
  | fuel + 1, h, slow, fast =>
    match fast with
    | none => some slow
    | some f =>
      match h f with
      | none => none
      | some nf =>
        match nf.next with
        | none => front_back_split_loop fuel h slow none
        | some f2 =>
          match slow with
          | none => none
          | some s =>
            match h s, h f2 with
            | some ns, some nf2 => front_back_split_loop fuel h ns.next nf2.next
            | _, _ => none

/-- Function `front_back_split`; returns the heap, `*front_ref` and `*back_ref`. -/
def front_back_split (fuel : Nat) (h : Heap) (src : Option Ptr) :
    Option (Heap × Option Ptr × Option Ptr) :=
  match src with
  | none => none
  | some s =>
    match h s with
    | none => none
    | some nsrc =>
      match front_back_split_loop fuel h src nsrc.next with
      | none => none
      | some none => none
      | some (some sl) =>
        match h sl with
        | none => none
        | some nsl => some (store h sl (some { nsl with next := none }), src, nsl.next)

/-- Function `merge_sort`; `head` is `*head_ref` on entry, the result holds the heap and
`*head_ref` on return. The fuel bounds the depth of the recursion and the iterations of
each loop. -/
def merge_sort : Nat → Heap → Option Ptr → Option (Heap × Option Ptr)
  | 0, _, _ => none
  | fuel + 1, h, head =>
    match head with
    | none => some (h, head)
    | some p =>
      match h p with
      | none => none
      | some np =>
        match np.next with
        | none => some (h, head)
        | some _ =>
          match front_back_split (fuel + 1) h head with
          | none => none
          | some (h1, a, b) =>
            match merge_sort fuel h1 a with
            | none => none
            | some (h2, a2) =>
              match merge_sort fuel h2 b with
              | none => none
              | some (h3, b2) => sorted_merge (fuel + 1) h3 a2 b2

/-- The loop of `q_sort` that walks `q->tail` forward to the last node; returns the
final `q->tail`. -/
def q_sort_tail_loop : Nat → Heap → Option Ptr → Option (Option Ptr)
  | 0, _, _ => none
  | fuel + 1, h, tail =>
    match tail with
    | none => none
    | some t =>
      match h t with
      | none => none
      | some nt =>
        match nt.next with
        | none => some tail
        | some _ => q_sort_tail_loop fuel h nt.next

/-- Function `q_sort`. -/
def q_sort (fuel : Nat) (h : Heap) (q : Option queue_t) : Option (Heap × Option queue_t) :=
  match q with
  | none => some (h, none)
  | some qv =>
    match qv.head with
    | none => some (h, q)
    | some _ =>
      match merge_sort fuel h qv.head with
      | none => none
      | some (h1, hd) =>
        match q_sort_tail_loop fuel h1 qv.tail with
        | none => none
        | some tl => some (h1, some { qv with head := hd, tail := tl })

/-! ## Abstraction of the heap: chains of nodes, stored values, invariants -/

/-- Following `next` from `p` visits exactly the nodes `ns`, in this order, each of them
live, and the `next` of the last one is `e` (for an empty `ns`, `p` itself is `e`). -/
def Seg (h : Heap) : Option Ptr → List Ptr → Option Ptr → Prop
  | p, [], e => p = e
  | p, x :: xs, e => p = some x ∧ ∃ nd, h x = some nd ∧ Seg h nd.next xs e

/-- Following `next` from `p` visits exactly the nodes `ns` and then reaches the null
pointer. -/
def Linked (h : Heap) (p : Option Ptr) (ns : List Ptr) : Prop := Seg h p ns none

/-- The value stored in the node at `p` (the empty string when `p` is not live). -/
def val (h : Heap) (p : Ptr) : List Nat :=
  match h p with
  | some nd => nd.value
  | none => []

/-- The values stored in the nodes `ns`, in order. -/
def vals (h : Heap) (ns : List Ptr) : List (List Nat) := ns.map (val h)

/-- Heap `h1` has the same live nodes as `h`, with the same values (only `next` fields
may differ). -/
def SameVals (h h1 : Heap) : Prop :=
  ∀ p, (h1 p).map (fun nd => nd.value) = (h p).map (fun nd => nd.value)

/-- The data-model invariants of a queue whose nodes are `ns`, from head to tail:
following `next` from `head` visits exactly `ns` and ends at the null pointer, `tail`
refers to the last node (and is null when there is none), and `size` is the number of
nodes. -/
def QInv (h : Heap) (q : queue_t) (ns : List Ptr) : Prop :=
  Linked h q.head ns ∧ q.tail = ns.getLast? ∧ q.size = (ns.length : Int)

/-- The engine's comparison rule: `u` is strictly less than `v` when
`strncmp(u, v, strlen(v)) < 0`, the test of `sorted_merge`. -/
def engine_lt (u v : List Nat) : Prop := strncmp u v (strlen v) < 0

instance engine_lt_decidable (u v : List Nat) : Decidable (engine_lt u v) :=
  inferInstanceAs (Decidable (strncmp u v (strlen v) < 0))

/-- A sequence of values is non-decreasing under the engine's comparison rule: for no
adjacent pair `x`, `y` is `y` strictly less than `x`. -/
def NonDecreasing (vs : List (List Nat)) : Prop :=
  List.Chain' (fun x y => ¬ engine_lt y x) vs

/-- The merge of two node sequences as `sorted_merge` performs it, on lists: the front
node of the first sequence is taken when its value is strictly less than the value of
the front node of the second, otherwise the front node of the second is taken. -/
def merge_nodes (key : Ptr → List Nat) (xs ys : List Ptr) : List Ptr :=
  List.merge xs ys (fun x y => decide (strncmp (key x) (key y) (strlen (key y)) < 0))

/-! ## Sequences of calls -/

/-- The byte string of "a". -/
def str_a : List Nat := [97]

/-- The byte string of "apple". -/
def str_apple : List Nat := [97, 112, 112, 108, 101]

/-- The byte string of "banana". -/
def str_banana : List Nat := [98, 97, 110, 97, 110, 97]

/-- A heap with the chain 1 → 2: "banana", "apple". -/
def heap2 : Heap :=
  store (store emptyHeap 2 (some { value := str_apple, next := none })) 1
    (some { value := str_banana, next := some 2 })

/-- The queue over `heap2`. -/
def queue2 : queue_t := { head := some 1, tail := some 2, size := 2 }

/-- A heap with the single node 1: "apple". -/
def heap1 : Heap := store emptyHeap 1 (some { value := str_apple, next := none })

/-- The queue over `heap1`. -/
def queue1 : queue_t := { head := some 1, tail := some 1, size := 1 }

/-- The nodes `ns` are in non-decreasing order of their keys under the engine's
comparison rule. -/
def SortedNodes (key : Ptr → List Nat) (ns : List Ptr) : Prop :=
  List.Chain' (fun x y => ¬ engine_lt (key y) (key x)) ns

/-- A block of twenty non-NUL bytes: the string read from an uninitialised block that was
filled with the byte 0x55. -/
def filled : List Nat := List.replicate 20 85

/-- The byte string of "cherry". -/
def str_cherry : List Nat := [99, 104, 101, 114, 114, 121]

/-- The byte stores that `q_remove_head` makes through `sp` when the head node holds the
value `v` (the expression of `q_remove_head`, under a name). -/
def head_stores (v : List Nat) (sp : Bool) (bufsize : Nat) : List (Nat × Nat) :=
  if sp then
    let len := strlen v + 1
    let len := if len > bufsize then bufsize else len
    strncpy v len ++ [((len + 2 ^ 64 - 1) % 2 ^ 64, 0)]
  else []

/-- Successive calls of `q_insert_tail`, one for each item: the value, the address
returned by the node allocation, and the string held by the fresh value block. Returns
the values returned by the calls, and the final heap and queue. -/
def insert_tails : Heap → Option queue_t → List (List Nat × Ptr × List Nat) →
    Option (List Bool × Heap × Option queue_t)
  | h, q, [] => some ([], h, q)
  | h, q, (s, p, junk) :: rest =>
    match q_insert_tail h q s (some p) (some junk) with
    | none => none
    | some (ok, h1, q1) =>
      match insert_tails h1 q1 rest with
      | none => none
      | some (oks, h2, q2) => some (ok :: oks, h2, q2)

/-- Successive calls of `q_remove_head` with a supplied buffer of capacity `bufsize`, `n`
of them. Returns the value returned and the byte stores made by each call, and the final
heap and queue. -/
def remove_heads : Nat → Heap → Option queue_t → Nat →
    Option (List (Bool × List (Nat × Nat)) × Heap × Option queue_t)
  | 0, h, q, _ => some ([], h, q)
  | n + 1, h, q, bufsize =>
    match q_remove_head h q true bufsize with
    | none => none
    | some (ok, h1, q1, ws) =>
      match remove_heads n h1 q1 bufsize with
      | none => none
      | some (rs, h2, q2) => some ((ok, ws) :: rs, h2, q2)

/-- A heap with two separate one-node chains: node 1 holds "apple", node 2 holds "apple". -/
def heap_tie : Heap :=
  store (store emptyHeap 2 (some { value := str_apple, next := none })) 1
    (some { value := str_apple, next := none })

/-! ## The comparison of text values: NUL-free strings, the full comparison -/

/-- The byte string has no NUL byte: it is the content of a C string. -/
def NulFree (s : List Nat) : Prop := ∀ c ∈ s, c ≠ 0

instance NulFree_decidable (s : List Nat) : Decidable (NulFree s) :=
  inferInstanceAs (Decidable (∀ c ∈ s, c ≠ 0))

/-- C `strcmp(a, b)`, the standard full-length lexicographic comparison: compares bytes
as unsigned values up to the first difference or the terminating NUL. -/
def strcmp : List Nat → List Nat → Int
  | [], [] => 0
  | [], y :: _ => 0 - (y : Int)
  | x :: _, [] => (x : Int)
  | x :: xs, y :: ys =>
    if x ≠ y then (x : Int) - (y : Int)
    else if x = 0 then 0
    else strcmp xs ys

/-- The loop of `sorted_merge` with the engine's test replaced by the standard
full-length comparison `strcmp(a->value, b->value) < 0`, as the spec's design note
considers; everything else is as in `sorted_merge_loop`. -/
def sorted_merge_loop_strcmp : Nat → Heap → Option Ptr → TailRef → Option Ptr → Option Ptr →
    Option (Heap × Option Ptr)
  | 0, _, _, _, _, _ => none
  | fuel + 1, h, d, tail, a, b =>
    match a, b with
    | none, _ => set_tail_next h d b tail
    | some _, none => set_tail_next h d a tail
    | some pa, some pb =>
      match h pa, h pb with
      | some na, some nb =>
        if strcmp na.value nb.value < 0 then
          match merge_step h d tail a with
          | none => none
          | some (h2, d2, tail2, a2) => sorted_merge_loop_strcmp fuel h2 d2 tail2 a2 b
        else
          match merge_step h d tail b with
          | none => none
          | some (h2, d2, tail2, b2) => sorted_merge_loop_strcmp fuel h2 d2 tail2 a b2
      | _, _ => none

/-- The variant of `sorted_merge` with the standard full-length comparison. -/
def sorted_merge_strcmp (fuel : Nat) (h : Heap) (a b : Option Ptr) :
    Option (Heap × Option Ptr) :=
  sorted_merge_loop_strcmp fuel h none TailRef.dummy a b

/-- The variant of `merge_sort` with the standard full-length comparison. -/
def merge_sort_strcmp : Nat → Heap → Option Ptr → Option (Heap × Option Ptr)
  | 0, _, _ => none
  | fuel + 1, h, head =>
    match head with
    | none => some (h, head)
    | some p =>
      match h p with
      | none => none
      | some np =>
        match np.next with
        | none => some (h, head)
        | some _ =>
          match front_back_split (fuel + 1) h head with
          | none => none
          | some (h1, a, b) =>
            match merge_sort_strcmp fuel h1 a with
            | none => none
            | some (h2, a2) =>
              match merge_sort_strcmp fuel h2 b with
              | none => none
              | some (h3, b2) => sorted_merge_strcmp (fuel + 1) h3 a2 b2

/-- The variant of `q_sort` with the standard full-length comparison. -/
def q_sort_strcmp (fuel : Nat) (h : Heap) (q : Option queue_t) :
    Option (Heap × Option queue_t) :=
  match q with
  | none => some (h, none)
  | some qv =>
    match qv.head with
    | none => some (h, q)
    | some _ =>
      match merge_sort_strcmp fuel h qv.head with
      | none => none
      | some (h1, hd) =>
        match q_sort_tail_loop fuel h1 qv.tail with
        | none => none
        | some tl => some (h1, some { qv with head := hd, tail := tl })

/-- The byte string of "ab". -/
def str_ab : List Nat := [97, 98]

/-- The byte string of "abc". -/
def str_abc : List Nat := [97, 98, 99]

/-- A heap with the chain 3 → 4: "apple", "banana" (the values of `heap2`, in the other
order, in other nodes). -/
def heap2r : Heap :=
  store (store emptyHeap 4 (some { value := str_banana, next := none })) 3
    (some { value := str_apple, next := some 4 })

/-- The queue over `heap2r`. -/
def queue2r : queue_t := { head := some 3, tail := some 4, size := 2 }

/-! ## Basic facts about heaps and chains -/

theorem store_same (h : Heap) (p : Ptr) (v : Option list_ele_t) : store h p v p = v := by
  simp [store]

theorem store_other (h : Heap) (p x : Ptr) (v : Option list_ele_t) (hx : x ≠ p) :
    store h p v x = h x := by
  simp [store, hx]

theorem Seg_congr {h h1 : Heap} {ns : List Ptr} (hf : ∀ x ∈ ns, h1 x = h x) :
    ∀ {p e : Option Ptr}, Seg h p ns e → Seg h1 p ns e := by
  induction ns with
  | nil => intro p e hs; exact hs
  | cons x xs ih =>
    intro p e hs
    obtain ⟨hp, nd, hx, hrest⟩ := hs
    refine ⟨hp, nd, ?_, ?_⟩
    · rw [hf x (List.mem_cons_self x xs)]; exact hx
    · exact ih (fun y hy => hf y (List.mem_cons_of_mem x hy)) hrest

theorem Seg_store_of_not_mem {h : Heap} {ns : List Ptr} {p e : Option Ptr} {x : Ptr}
    (v : Option list_ele_t) (hx : x ∉ ns) (hs : Seg h p ns e) : Seg (store h x v) p ns e := by
  refine Seg_congr ?_ hs
  intro y hy
  apply store_other
  intro hyx
  exact hx (hyx ▸ hy)

theorem Seg_append {h : Heap} {l1 l2 : List Ptr} {e : Option Ptr} :
    ∀ {p : Option Ptr}, Seg h p (l1 ++ l2) e ↔ ∃ m, Seg h p l1 m ∧ Seg h m l2 e := by
  induction l1 with
  | nil =>
    intro p
    constructor
    · intro hs; exact ⟨p, rfl, hs⟩
    · rintro ⟨m, hm, hs⟩
      have : p = m := hm
      subst this; exact hs
  | cons x xs ih =>
    intro p
    constructor
    · rintro ⟨hp, nd, hx, hrest⟩
      obtain ⟨m, h1, h2⟩ := ih.mp hrest
      exact ⟨m, ⟨hp, nd, hx, h1⟩, h2⟩
    · rintro ⟨m, ⟨hp, nd, hx, h1⟩, h2⟩
      exact ⟨hp, nd, hx, ih.mpr ⟨m, h1, h2⟩⟩

theorem Seg_head {h : Heap} {ns : List Ptr} {p e : Option Ptr} (hs : Seg h p ns e) :
    p = (ns.head?).or e := by
  cases ns with
  | nil => exact hs
  | cons x xs => exact hs.1

theorem Linked_head {h : Heap} {ns : List Ptr} {p : Option Ptr} (hs : Linked h p ns) :
    p = ns.head? := by
  have := Seg_head hs
  cases ns <;> simpa using this

theorem Linked_unique {h : Heap} {ns : List Ptr} :
    ∀ {ms : List Ptr} {p : Option Ptr}, Linked h p ns → Linked h p ms → ns = ms := by
  induction ns with
  | nil =>
    intro ms p h1 h2
    cases ms with
    | nil => rfl
    | cons y ys =>
      have e1 : p = none := h1
      have e2 : p = some y := h2.1
      rw [e1] at e2; cases e2
  | cons x xs ih =>
    intro ms p h1 h2
    cases ms with
    | nil =>
      have e1 : p = none := h2
      have e2 : p = some x := h1.1
      rw [e1] at e2; cases e2
    | cons y ys =>
      obtain ⟨hp1, nd1, hx1, hr1⟩ := h1
      obtain ⟨hp2, nd2, hx2, hr2⟩ := h2
      rw [hp1] at hp2
      cases hp2
      rw [hx1] at hx2
      cases hx2
      rw [ih hr1 hr2]

theorem Linked_suffix {h : Heap} {l1 l2 : List Ptr} {p : Option Ptr} {x : Ptr}
    (hs : Linked h p (l1 ++ x :: l2)) : Linked h (some x) (x :: l2) := by
  obtain ⟨m, _, h2⟩ := Seg_append.mp hs
  have hm : m = some x := h2.1
  subst hm
  exact h2

theorem Linked_not_mem_tail {h : Heap} {x : Ptr} {xs : List Ptr} {p : Option Ptr}
    (hs : Linked h p (x :: xs)) : x ∉ xs := by
  intro hmem
  obtain ⟨l1, l2, hl⟩ := List.append_of_mem hmem
  obtain ⟨_, nd, hx, hrest⟩ := hs
  have hrest1 : Linked h nd.next (l1 ++ x :: l2) := hl ▸ hrest
  obtain ⟨_, nd2, hx2, hr2⟩ := Linked_suffix hrest1
  rw [hx] at hx2
  cases hx2
  have := Linked_unique hr2 hrest1
  have hlen := congrArg List.length this
  simp at hlen
  omega

theorem Linked_tail {h : Heap} {x : Ptr} {xs : List Ptr} {p : Option Ptr}
    (hs : Linked h p (x :: xs)) : ∃ nd, h x = some nd ∧ Linked h nd.next xs :=
  hs.2

theorem Linked_nodup {h : Heap} {ns : List Ptr} :
    ∀ {p : Option Ptr}, Linked h p ns → ns.Nodup := by
  induction ns with
  | nil => intro p _; exact List.nodup_nil
  | cons x xs ih =>
    intro p hs
    obtain ⟨nd, _, hrest⟩ := Linked_tail hs
    exact List.nodup_cons.mpr ⟨Linked_not_mem_tail hs, ih hrest⟩

theorem Linked_live {h : Heap} {ns : List Ptr} {p : Option Ptr} (hs : Linked h p ns)
    {x : Ptr} (hx : x ∈ ns) : ∃ nd, h x = some nd := by
  obtain ⟨l1, l2, hl⟩ := List.append_of_mem hx
  subst hl
  obtain ⟨_, nd, hnd, _⟩ := Linked_suffix hs
  exact ⟨nd, hnd⟩

/-! ## Copying a value on insertion -/

theorem strlcpy_fails_iff (junk s : List Nat) :
    ((strlcpy junk s (strlen junk + 1)).2 ≥ ((strlen (strlcpy junk s (strlen junk + 1)).1 + 1 : Nat) : Int)
      ∨ (strlcpy junk s (strlen junk + 1)).2 < 0) ↔ junk.length < s.length := by
  simp only [strlcpy, strlen, Nat.add_sub_cancel, List.length_take]
  simp only [Nat.add_one_ne_zero, if_false, List.length_take]
  constructor
  · rintro (h | h)
    · have : min junk.length s.length + 1 ≤ s.length := by exact_mod_cast h
      omega
    · omega
  · intro h
    left
    have : min junk.length s.length + 1 ≤ s.length := by omega
    exact_mod_cast this

theorem strlcpy_value (junk s : List Nat) (hlen : s.length ≤ junk.length) :
    (strlcpy junk s (strlen junk + 1)).1 = s := by
  simp only [strlcpy, strlen, Nat.add_sub_cancel, Nat.add_one_ne_zero, if_false]
  exact List.take_of_length_le hlen

theorem q_insert_head_short (h : Heap) (q : queue_t) (s junk : List Nat) (p : Ptr)
    (hlen : junk.length < s.length) :
    q_insert_head h (some q) s (some p) (some junk) = some (false, h, some q) := by
  simp only [q_insert_head]
  rw [if_pos ((strlcpy_fails_iff junk s).mpr hlen)]

theorem q_insert_tail_short (h : Heap) (q : queue_t) (s junk : List Nat) (p : Ptr)
    (hlen : junk.length < s.length) :
    q_insert_tail h (some q) s (some p) (some junk) = some (false, h, some q) := by
  simp only [q_insert_tail]
  rw [if_pos ((strlcpy_fails_iff junk s).mpr hlen)]

/-! ## Insertion and removal on a queue that satisfies the invariants -/

theorem QInv_size_zero {h : Heap} {q : queue_t} {ns : List Ptr} (hinv : QInv h q ns) :
    q.size = 0 ↔ ns = [] := by
  obtain ⟨_, _, hsz⟩ := hinv
  rw [hsz]
  constructor
  · intro h0
    have : ns.length = 0 := by exact_mod_cast h0
    exact List.length_eq_zero.mp this
  · intro h0
    simp [h0]

theorem fresh_not_mem {h : Heap} {ns : List Ptr} {hd : Option Ptr} {p : Ptr}
    (hl : Linked h hd ns) (hfresh : h p = none) : p ∉ ns := by
  intro hmem
  obtain ⟨nd, hnd⟩ := Linked_live hl hmem
  rw [hfresh] at hnd
  cases hnd

theorem q_insert_head_ok (h : Heap) (q : queue_t) (ns : List Ptr) (s junk : List Nat) (p : Ptr)
    (hinv : QInv h q ns) (hfresh : h p = none) (hlen : s.length ≤ junk.length) :
    ∃ q1, q_insert_head h (some q) s (some p) (some junk)
        = some (true, store h p (some { value := s, next := q.head }), some q1)
      ∧ QInv (store h p (some { value := s, next := q.head })) q1 (p :: ns)
      ∧ q1.head = some p ∧ q1.size = q.size + 1
      ∧ q1.tail = (if ns = [] then some p else q.tail) := by
  have hno : ¬ ((strlcpy junk s (strlen junk + 1)).2 ≥
      ((strlen (strlcpy junk s (strlen junk + 1)).1 + 1 : Nat) : Int)
      ∨ (strlcpy junk s (strlen junk + 1)).2 < 0) := by
    rw [strlcpy_fails_iff]; omega
  have hz := QInv_size_zero hinv
  obtain ⟨hl, htl, hsz⟩ := hinv
  have hp : p ∉ ns := fresh_not_mem hl hfresh
  have hlink : Linked (store h p (some { value := s, next := q.head })) (some p) (p :: ns) :=
    ⟨rfl, _, store_same _ _ _, Seg_store_of_not_mem _ hp hl⟩
  simp only [q_insert_head]
  rw [if_neg hno, strlcpy_value junk s hlen]
  by_cases hq : q.size = 0
  · have hns : ns = [] := hz.mp hq
    subst hns
    simp only [hq, if_true]
    refine ⟨_, rfl, ⟨hlink, ?_, ?_⟩, ?_, ?_, ?_⟩
    · simp
    · simp
    · rfl
    · simp
    · simp
  · have hns : ns ≠ [] := fun e => hq (hz.mpr e)
    simp only [hq, if_false]
    refine ⟨_, rfl, ⟨hlink, ?_, ?_⟩, ?_, ?_, ?_⟩
    · show q.tail = (p :: ns).getLast?
      rw [htl]
      cases ns with
      | nil => exact absurd rfl hns
      | cons y ys => simp
    · show q.size + 1 = ((p :: ns).length : Int)
      rw [hsz]; simp
    · rfl
    · rfl
    · simp [hns]

theorem q_insert_tail_ok (h : Heap) (q : queue_t) (ns : List Ptr) (s junk : List Nat) (p : Ptr)
    (hinv : QInv h q ns) (hfresh : h p = none) (hlen : s.length ≤ junk.length) :
    ∃ h1 q1, q_insert_tail h (some q) s (some p) (some junk) = some (true, h1, some q1)
      ∧ QInv h1 q1 (ns ++ [p]) ∧ vals h1 (ns ++ [p]) = vals h ns ++ [s]
      ∧ (∀ x, x ∉ ns → x ≠ p → h1 x = h x) := by
  have hno : ¬ ((strlcpy junk s (strlen junk + 1)).2 ≥
      ((strlen (strlcpy junk s (strlen junk + 1)).1 + 1 : Nat) : Int)
      ∨ (strlcpy junk s (strlen junk + 1)).2 < 0) := by
    rw [strlcpy_fails_iff]; omega
  have hz := QInv_size_zero hinv
  obtain ⟨hl, htl, hsz⟩ := hinv
  have hp : p ∉ ns := fresh_not_mem hl hfresh
  simp only [q_insert_tail]
  rw [if_neg hno, strlcpy_value junk s hlen]
  by_cases hq : q.size = 0
  · have hns : ns = [] := hz.mp hq
    subst hns
    rw [if_pos hq]
    refine ⟨_, _, rfl, ⟨?_, ?_, ?_⟩, ?_, ?_⟩
    · exact ⟨rfl, _, store_same _ _ _, rfl⟩
    · simp
    · simp [hq]
    · simp [vals, val, store_same]
    · intro x _ hx
      exact store_other _ _ _ _ hx
  · have hns : ns ≠ [] := fun e => hq (hz.mpr e)
    rw [if_neg hq]
    obtain ⟨l, t, hlt⟩ : ∃ l t, ns = l ++ [t] :=
      ⟨ns.dropLast, ns.getLast hns, (List.dropLast_append_getLast hns).symm⟩
    subst hlt
    have htail : q.tail = some t := by rw [htl]; simp
    obtain ⟨m, hseg, hlast⟩ := Seg_append.mp hl
    obtain ⟨hm, tn, htn, hend⟩ := hlast
    have hend1 : tn.next = none := hend
    have hnd := Linked_nodup hl
    have htl1 : t ∉ l := by
      intro hmem
      have := List.nodup_append.mp hnd
      exact this.2.2 hmem (List.mem_singleton_self t)
    have hpl : p ∉ l := fun hmem => hp (List.mem_append_left _ hmem)
    have hpt : t ≠ p := by
      intro e
      exact hp (List.mem_append_right _ (by simp [e]))
    have h1t : store h p (some { value := s, next := none }) t = some tn := by
      rw [store_other _ _ _ _ hpt]; exact htn
    rw [htail]
    simp only [h1t]
    refine ⟨_, _, rfl, ⟨?_, ?_, ?_⟩, ?_, ?_⟩
    · show Linked _ q.head (l ++ [t] ++ [p])
      rw [List.append_assoc]
      refine Seg_append.mpr ⟨m, ?_, ?_⟩
      · exact Seg_store_of_not_mem _ htl1 (Seg_store_of_not_mem _ hpl hseg)
      · refine ⟨hm, _, store_same _ _ _, ?_⟩
        refine ⟨rfl, { value := s, next := none }, ?_, rfl⟩
        rw [store_other _ _ _ _ (Ne.symm hpt), store_same]
    · simp
    · show q.size + 1 = ((l ++ [t] ++ [p]).length : Int)
      rw [hsz]
      simp only [List.length_append, List.length_singleton]
      push_cast
      ring
    · have hv : ∀ x ∈ l ++ [t], val (store (store h p (some { value := s, next := none })) t
          (some { tn with next := some p })) x = val h x := by
        intro x hx
        have hxp : x ≠ p := fun e => hp (e ▸ hx)
        simp only [val]
        by_cases hxt : x = t
        · subst hxt
          rw [store_same, htn]
        · rw [store_other _ _ _ _ hxt, store_other _ _ _ _ hxp]
      have hvp : val (store (store h p (some { value := s, next := none })) t
          (some { tn with next := some p })) p = s := by
        simp only [val]
        rw [store_other _ _ _ _ (Ne.symm hpt), store_same]
      show List.map _ (l ++ [t] ++ [p]) = List.map _ (l ++ [t]) ++ [s]
      rw [List.map_append, List.map_congr_left hv]
      simp only [List.map_cons, List.map_nil, hvp]
    · intro x hx hxp
      have hxt : x ≠ t := fun e => hx (by simp [e])
      rw [store_other _ _ _ _ hxt, store_other _ _ _ _ hxp]

theorem q_remove_head_ok (h : Heap) (q : queue_t) (x : Ptr) (xs : List Ptr) (sp : Bool)
    (bufsize : Nat) (hinv : QInv h q (x :: xs)) :
    ∃ nd q1 ws, h x = some nd ∧
      q_remove_head h (some q) sp bufsize = some (true, store h x none, some q1, ws)
      ∧ QInv (store h x none) q1 xs ∧ q1.head = nd.next ∧ q1.size = q.size - 1
      ∧ q1.tail = (if xs = [] then none else q.tail)
      ∧ ws = head_stores nd.value sp bufsize := by
  have hz := QInv_size_zero hinv
  obtain ⟨hl, htl, hsz⟩ := hinv
  have hq : q.size ≠ 0 := fun e => by
    have := hz.mp e
    cases this
  have hx : x ∉ xs := Linked_not_mem_tail hl
  obtain ⟨hhead, nd, hnd, hrest⟩ := hl
  have hlink : Linked (store h x none) nd.next xs := Seg_store_of_not_mem _ hx hrest
  simp only [q_remove_head]
  rw [if_neg hq, hhead]
  simp only [hnd]
  have hsz1 : q.size - 1 = (xs.length : Int) := by
    rw [hsz]; simp
  by_cases hxs : xs = []
  · subst hxs
    have h0 : q.size - 1 = 0 := by rw [hsz1]; simp
    refine ⟨nd, _, _, rfl, rfl, ⟨?_, ?_, ?_⟩, ?_, ?_, ?_, rfl⟩
    · simpa [h0] using hlink
    · simp [h0]
    · simp [h0]
    · simp [h0]
    · simp [h0]
    · simp [h0]
  · have h0 : q.size - 1 ≠ 0 := by
      rw [hsz1]
      intro e
      have : xs.length = 0 := by exact_mod_cast e
      exact hxs (List.length_eq_zero.mp this)
    refine ⟨nd, _, _, rfl, rfl, ⟨?_, ?_, ?_⟩, ?_, ?_, ?_, rfl⟩
    · simpa [h0] using hlink
    · simp only [h0, if_false]
      rw [htl]
      cases xs with
      | nil => exact absurd rfl hxs
      | cons y ys => simp
    · simp only [h0, if_false]
      exact hsz1
    · simp [h0]
    · simp [h0]
    · simp [h0, hxs]

/-! ## The byte stores of `q_remove_head` -/

theorem length_pokeAll (ws : List (Nat × Nat)) :
    ∀ buf : List Nat, (pokeAll buf ws).length = buf.length := by
  induction ws with
  | nil => intro buf; rfl
  | cons w ws ih =>
    intro buf
    have : pokeAll buf (w :: ws) = pokeAll (poke buf w) ws := rfl
    rw [this, ih]
    simp [poke]

theorem pokeAll_append (buf : List Nat) (ws1 ws2 : List (Nat × Nat)) :
    pokeAll buf (ws1 ++ ws2) = pokeAll (pokeAll buf ws1) ws2 := by
  simp [pokeAll, List.foldl_append]

theorem strncpy_succ (src : List Nat) (n : Nat) :
    strncpy src (n + 1) = strncpy src n ++ [(n, src.getD n 0)] := by
  simp [strncpy, List.range_succ]

theorem getElem?_pokeAll_strncpy (buf src : List Nat) (i : Nat) :
    ∀ n, n ≤ buf.length →
      (pokeAll buf (strncpy src n))[i]? = if i < n then some (src.getD i 0) else buf[i]? := by
  intro n
  induction n with
  | zero => intro _; simp [strncpy, pokeAll]
  | succ n ih =>
    intro hn
    rw [strncpy_succ, pokeAll_append]
    have hstep : pokeAll (pokeAll buf (strncpy src n)) [(n, src.getD n 0)]
        = (pokeAll buf (strncpy src n)).set n (src.getD n 0) := rfl
    rw [hstep, List.getElem?_set, length_pokeAll, ih (by omega)]
    by_cases h1 : n = i
    · subst h1
      simp
      omega
    · by_cases h2 : i < n
      · have : i < n + 1 := by omega
        simp [h1, h2, this]
      · have : ¬ i < n + 1 := by omega
        simp [h1, h2, this]

theorem size_t_pred (n : Nat) (h1 : 1 ≤ n) (h2 : n ≤ 2 ^ 64) :
    (n + 2 ^ 64 - 1) % 2 ^ 64 = n - 1 := by
  have e : (2 : Nat) ^ 64 = 18446744073709551616 := by norm_num
  rw [e] at h2 ⊢
  omega

theorem strncpy_index_lt (src : List Nat) (n : Nat) : ∀ w ∈ strncpy src n, w.1 < n := by
  intro w hw
  simp only [strncpy, List.mem_map, List.mem_range] at hw
  obtain ⟨i, hi, rfl⟩ := hw
  exact hi

/-- The stores made through a supplied buffer of capacity at least 1 stay inside the
buffer. -/
theorem q_remove_head_stores_in_bounds (h : Heap) (q : Option queue_t) (c : Nat)
    (hc : 1 ≤ c) (hc64 : c < 2 ^ 64) (r : Bool × Heap × Option queue_t × List (Nat × Nat))
    (hr : q_remove_head h q true c = some r) : ∀ w ∈ r.2.2.2, w.1 < c := by
  cases q with
  | none =>
    simp only [q_remove_head, Option.some.injEq] at hr
    subst hr
    intro w hw
    cases hw
  | some qv =>
    simp only [q_remove_head] at hr
    split at hr
    · simp only [Option.some.injEq] at hr
      subst hr
      intro w hw
      cases hw
    · split at hr
      · cases hr
      · split at hr
        · cases hr
        · rename_i nd _
          simp only [Option.some.injEq] at hr
          subst hr
          intro w hw
          simp only [if_true, List.mem_append, List.mem_singleton] at hw
          rcases hw with hw | hw
          · have := strncpy_index_lt _ _ w hw
            split at this <;> omega
          · subst hw
            show ((if strlen nd.value + 1 > c then c else strlen nd.value + 1) + 2 ^ 64 - 1)
              % 2 ^ 64 < c
            split
            · rw [size_t_pred _ hc (by omega)]; omega
            · rw [size_t_pred _ (by omega) (by omega)]; omega

/-- C3 (evaluation at the failing input): on the queue holding "apple", `q_remove_head`
with a supplied buffer of capacity 0 returns true after exactly one byte store through
`sp`, the terminator written by `sp[len - 1] = 0` with `len = 0`, at offset `2 ^ 64 - 1`;
this store is not inside a buffer of capacity 0. -/
theorem q_remove_head_capacity_zero :
    ∃ h1 q1 ws, q_remove_head heap1 (some queue1) true 0 = some (true, h1, q1, ws)
      ∧ ws = [(18446744073709551615, 0)] ∧ ¬ (∀ w ∈ ws, w.1 < 0) := by
  refine ⟨_, _, _, rfl, rfl, ?_⟩
  intro hall
  exact Nat.not_lt_zero _ (hall (18446744073709551615, 0) (List.mem_singleton_self _))

theorem pokeAll_head_stores (v buf : List Nat) (c : Nat) (hc : 1 ≤ c) (hc64 : c < 2 ^ 64)
    (hbuf : c ≤ buf.length) :
    pokeAll buf (head_stores v true c)
      = v.take (min v.length (c - 1)) ++ 0 :: buf.drop (min v.length (c - 1) + 1) := by
  simp only [head_stores, if_true, strlen]
  have hlen : (if v.length + 1 > c then c else v.length + 1) = min v.length (c - 1) + 1 := by
    split <;> omega
  rw [hlen, size_t_pred _ (by omega) (by omega), pokeAll_append]
  generalize hk : min v.length (c - 1) = k
  have hkv : k ≤ v.length := by omega
  have hkc : k + 1 ≤ buf.length := by omega
  have hstep : pokeAll (pokeAll buf (strncpy v (k + 1))) [(k + 1 - 1, 0)]
      = (pokeAll buf (strncpy v (k + 1))).set k 0 := rfl
  rw [hstep]
  apply List.ext_getElem?
  intro i
  rw [List.getElem?_set, length_pokeAll, getElem?_pokeAll_strncpy buf v i (k + 1) hkc,
    List.getElem?_append, List.length_take, Nat.min_eq_left hkv]
  by_cases h1 : k = i
  · subst h1
    simp
    omega
  · by_cases h2 : i < k
    · have h3 : i < k + 1 := by omega
      have h4 : i < v.length := by omega
      rw [if_neg h1, if_pos h3, if_pos h2, List.getElem?_take_of_lt h2]
      simp [List.getElem?_eq_getElem h4]
    · have h3 : ¬ i < k + 1 := by omega
      rw [if_neg h1, if_neg h3, if_neg h2]
      obtain ⟨j, hj⟩ : ∃ j, i - k = j + 1 := ⟨i - k - 1, by omega⟩
      rw [hj, List.getElem?_cons_succ, List.getElem?_drop]
      congr 1
      omega

/-- C4: on a non-empty queue whose head node holds the value `v`, `q_remove_head` with a
supplied buffer of capacity `c ≥ 1` returns true, and a buffer of at least `c` bytes then
holds the first `min (len v) (c - 1)` bytes of `v`, a terminator, and its old contents
after that. -/
theorem q_remove_head_copies (h : Heap) (q : queue_t) (hp : Ptr) (v : List Nat)
    (nx : Option Ptr) (c : Nat)
    (hsize : q.size ≠ 0) (hhead : q.head = some hp)
    (hnode : h hp = some { value := v, next := nx })
    (hc : 1 ≤ c) (hc64 : c < 2 ^ 64) :
    ∃ h1 q1 ws, q_remove_head h (some q) true c = some (true, h1, q1, ws) ∧
      ∀ buf : List Nat, c ≤ buf.length →
        pokeAll buf ws
          = v.take (min v.length (c - 1)) ++ 0 :: buf.drop (min v.length (c - 1) + 1) := by
  simp only [q_remove_head]
  rw [if_neg hsize, hhead]
  simp only [hnode]
  refine ⟨_, _, _, rfl, ?_⟩
  intro buf hbuf
  exact pokeAll_head_stores v buf c hc hc64 hbuf

theorem q_remove_head_copies_witness :
    queue1.size ≠ 0 ∧ queue1.head = some 1
      ∧ heap1 1 = some { value := str_apple, next := none } ∧ 1 ≤ 4 ∧ 4 < 2 ^ 64
      ∧ ∃ h1 q1 ws, q_remove_head heap1 (some queue1) true 4 = some (true, h1, q1, ws) ∧
        ∀ buf : List Nat, 4 ≤ buf.length →
          pokeAll buf ws = str_apple.take (min str_apple.length (4 - 1))
            ++ 0 :: buf.drop (min str_apple.length (4 - 1) + 1) :=
  ⟨by decide, rfl, rfl, by decide, by norm_num,
    q_remove_head_copies heap1 queue1 1 str_apple none 4 (by decide) rfl rfl (by decide)
      (by norm_num)⟩

/-- C6 (evaluation at the failing input): both allocations succeed and the fresh value
block starts with a NUL byte (its string is empty); `q_insert_head` of "a" into the empty
queue returns false and leaves the queue empty. -/
theorem q_insert_head_zeroed_block :
    q_insert_head emptyHeap (q_new true) str_a (some 1) (some [])
      = some (false, emptyHeap, q_new true) :=
  q_insert_head_short emptyHeap _ str_a [] 1 (by decide)

/-- C7 (evaluation at the failing input): both allocations succeed and the fresh value
block starts with a NUL byte; `q_insert_tail` of "a" into a freshly created queue returns
false and leaves it empty, and the `q_remove_head` that follows returns false without
yielding a value. -/
theorem fifo_zeroed_block :
    q_insert_tail emptyHeap (q_new true) str_a (some 1) (some [])
        = some (false, emptyHeap, q_new true)
      ∧ q_remove_head emptyHeap (q_new true) true 8 = some (false, emptyHeap, q_new true, []) :=
  ⟨q_insert_tail_short emptyHeap _ str_a [] 1 (by decide), rfl⟩

/-- C8: on a queue that is absent or satisfies the invariants, `q_remove_head` returns a
result; the result is false exactly when the queue is absent or its size is 0, and then
the heap and the queue (head, tail, size) are unchanged and nothing is stored through the
buffer. -/
theorem q_remove_head_false_iff (h : Heap) (q : Option queue_t) (sp : Bool) (c : Nat)
    (hinv : ∀ qv, q = some qv → ∃ ns, QInv h qv ns) :
    ∃ r, q_remove_head h q sp c = some r
      ∧ (r.1 = false ↔ (q = none ∨ ∃ qv, q = some qv ∧ qv.size = 0))
      ∧ (r.1 = false → r = (false, h, q, [])) := by
  cases q with
  | none =>
    refine ⟨(false, h, none, []), rfl, ?_, fun _ => rfl⟩
    simp
  | some qv =>
    obtain ⟨ns, hq⟩ := hinv qv rfl
    by_cases hz : qv.size = 0
    · refine ⟨(false, h, some qv, []), ?_, ?_, fun _ => rfl⟩
      · simp [q_remove_head, hz]
      · simp [hz]
    · cases ns with
      | nil => exact absurd ((QInv_size_zero hq).mpr rfl) hz
      | cons x xs =>
        obtain ⟨nd, q1, ws, _, hrun, _⟩ := q_remove_head_ok h qv x xs sp c hq
        refine ⟨_, hrun, ?_, ?_⟩
        · simp [hz]
        · intro hfalse
          cases hfalse

theorem q_remove_head_false_iff_witness :
    (∀ qv, q_new true = some qv → ∃ ns, QInv emptyHeap qv ns) ∧
    ∃ r, q_remove_head emptyHeap (q_new true) true 8 = some r
      ∧ (r.1 = false ↔ (q_new true = none ∨ ∃ qv, q_new true = some qv ∧ qv.size = 0))
      ∧ (r.1 = false → r = (false, emptyHeap, q_new true, [])) :=
  ⟨fun qv hq => by cases hq; exact ⟨[], rfl, rfl, rfl⟩,
    q_remove_head_false_iff emptyHeap (q_new true) true 8
      (fun qv hq => by cases hq; exact ⟨[], rfl, rfl, rfl⟩)⟩

/-- C9: when the queue is absent, or the node allocation fails, or the value allocation
fails, `q_insert_head` and `q_insert_tail` return false and leave the heap and the queue
(head, tail, size, chain of values) exactly as they were. -/
theorem q_insert_fails_unchanged (h : Heap) (q : Option queue_t) (s : List Nat)
    (node : Option Ptr) (buf : Option (List Nat))
    (hfail : q = none ∨ node = none ∨ buf = none) :
    q_insert_head h q s node buf = some (false, h, q)
      ∧ q_insert_tail h q s node buf = some (false, h, q) := by
  cases q with
  | none => exact ⟨rfl, rfl⟩
  | some qv =>
    cases node with
    | none => exact ⟨rfl, rfl⟩
    | some p =>
      cases buf with
      | none => exact ⟨rfl, rfl⟩
      | some junk =>
        rcases hfail with hf | hf | hf <;> cases hf

theorem q_insert_fails_unchanged_witness :
    ((some queue2 : Option queue_t) = none ∨ (some 3 : Option Ptr) = none
        ∨ (none : Option (List Nat)) = none)
      ∧ q_insert_head heap2 (some queue2) str_a (some 3) none = some (false, heap2, some queue2)
      ∧ q_insert_tail heap2 (some queue2) str_a (some 3) none = some (false, heap2, some queue2) :=
  ⟨Or.inr (Or.inr rfl),
    q_insert_fails_unchanged heap2 (some queue2) str_a (some 3) none (Or.inr (Or.inr rfl))⟩

/-! ## Chains by index -/

theorem Linked_getElem {h : Heap} {ns : List Ptr} :
    ∀ {p : Option Ptr}, Linked h p ns →
      ∀ j (hj : j < ns.length), ∃ nd, h ns[j] = some nd ∧ nd.next = ns[j + 1]? := by
  induction ns with
  | nil => intro p _ j hj; exact absurd hj (Nat.not_lt_zero _)
  | cons x xs ih =>
    intro p hs j hj
    obtain ⟨nd, hnd, hrest⟩ := Linked_tail hs
    cases j with
    | zero =>
      refine ⟨nd, hnd, ?_⟩
      rw [Linked_head hrest]
      simp [List.head?_eq_getElem?]
    | succ j =>
      have hj1 : j < xs.length := by simpa using hj
      obtain ⟨nd1, h1, h2⟩ := ih hrest j hj1
      exact ⟨nd1, by simpa using h1, by simpa using h2⟩

theorem SameVals_refl (h : Heap) : SameVals h h := fun _ => rfl

theorem SameVals_trans {h1 h2 h3 : Heap} (h12 : SameVals h1 h2) (h23 : SameVals h2 h3) :
    SameVals h1 h3 := fun p => (h23 p).trans (h12 p)

theorem SameVals_store {h : Heap} {p : Ptr} {nd : list_ele_t} (hp : h p = some nd)
    (e : Option Ptr) : SameVals h (store h p (some { nd with next := e })) := by
  intro x
  by_cases hx : x = p
  · subst hx
    rw [store_same, hp]; rfl
  · rw [store_other _ _ _ _ hx]

theorem SameVals_val {h h1 : Heap} (hv : SameVals h h1) : val h1 = val h := by
  funext p
  have := hv p
  simp only [val]
  cases e1 : h1 p <;> cases e2 : h p <;> simp_all

theorem SameVals_vals {h h1 : Heap} (hv : SameVals h h1) (ns : List Ptr) :
    vals h1 ns = vals h ns := by
  simp only [vals, SameVals_val hv]

/-! ## Function `front_back_split` -/

theorem front_back_split_loop_spec (h : Heap) (ns : List Ptr)
    (H : ∀ j (hj : j < ns.length), ∃ nd, h ns[j] = some nd ∧ nd.next = ns[j + 1]?) :
    ∀ fuel i, 2 * i + 1 ≤ ns.length → ns.length ≤ fuel + 2 * i →
      front_back_split_loop fuel h ns[i]? ns[2 * i + 1]? = some ns[(ns.length - 1) / 2]? := by
  intro fuel
  induction fuel with
  | zero => intro i h1 h2; omega
  | succ f ih =>
    intro i h1 h2
    by_cases hlt : 2 * i + 1 < ns.length
    · obtain ⟨nf, hnf, hnx⟩ := H (2 * i + 1) hlt
      have hi : i < ns.length := by omega
      obtain ⟨nsl, hnsl, hslx⟩ := H i hi
      by_cases hlt2 : 2 * i + 2 < ns.length
      · obtain ⟨nf2, hnf2, hnx2⟩ := H (2 * i + 2) hlt2
        have e1 : nf.next = some ns[2 * i + 2] := by
          rw [hnx, List.getElem?_eq_getElem hlt2]
        have hrec := ih (i + 1) (by omega) (by omega)
        have e2 : 2 * (i + 1) + 1 = 2 * i + 2 + 1 := by ring
        rw [e2] at hrec
        rw [List.getElem?_eq_getElem hlt, List.getElem?_eq_getElem hi]
        simp only [front_back_split_loop, hnf, e1, hnsl, hnf2, hslx, hnx2]
        exact hrec
      · have e1 : nf.next = none := by
          rw [hnx]; exact List.getElem?_eq_none (by omega)
        have hf : ∃ g, f = g + 1 := ⟨f - 1, by omega⟩
        obtain ⟨g, rfl⟩ := hf
        rw [List.getElem?_eq_getElem hlt]
        simp only [front_back_split_loop, hnf, e1]
        congr 2
        omega
    · have e0 : ns[2 * i + 1]? = none := List.getElem?_eq_none (by omega)
      rw [e0]
      simp only [front_back_split_loop]
      congr 2
      omega

theorem Seg_set_last {h : Heap} {l : List Ptr} {t : Ptr} {p e : Option Ptr}
    (hs : Seg h p (l ++ [t]) e) (ht : t ∉ l) (nd : list_ele_t) (e1 : Option Ptr) :
    Seg (store h t (some { nd with next := e1 })) p (l ++ [t]) e1 := by
  obtain ⟨m, h1, h2⟩ := Seg_append.mp hs
  refine Seg_append.mpr ⟨m, Seg_store_of_not_mem _ ht h1, ?_⟩
  exact ⟨h2.1, _, store_same _ _ _, rfl⟩

theorem front_back_split_spec (h : Heap) (p : Option Ptr) (ns : List Ptr)
    (hl : Linked h p ns) (hne : ns ≠ []) (fuel : Nat) (hf : ns.length ≤ fuel) :
    ∃ h1 b, front_back_split fuel h p = some (h1, p, b)
      ∧ Linked h1 p (ns.take ((ns.length + 1) / 2))
      ∧ Linked h1 b (ns.drop ((ns.length + 1) / 2))
      ∧ SameVals h h1 ∧ (∀ x, x ∉ ns → h1 x = h x) := by
  have H := Linked_getElem hl
  have hpos : 0 < ns.length := List.length_pos.mpr hne
  have hp : p = some ns[0] := by
    rw [Linked_head hl, List.head?_eq_getElem?, List.getElem?_eq_getElem hpos]
  obtain ⟨n0, hn0, hn0x⟩ := H 0 hpos
  have hloop := front_back_split_loop_spec h ns H fuel 0 (by omega) (by omega)
  have hk : (ns.length - 1) / 2 < ns.length := by omega
  obtain ⟨nk, hnk, hnkx⟩ := H ((ns.length - 1) / 2) hk
  rw [List.getElem?_eq_getElem hpos, List.getElem?_eq_getElem hk] at hloop
  have hk1 : (ns.length - 1) / 2 + 1 = (ns.length + 1) / 2 := by omega
  have hrun : front_back_split fuel h p
      = some (store h ns[(ns.length - 1) / 2] (some { nk with next := none }), p, nk.next) := by
    subst hp
    simp only [front_back_split, hn0, hn0x]
    simp only [Nat.mul_zero, Nat.zero_add] at hloop
    rw [hloop]
    simp only [hnk]
  refine ⟨_, _, hrun, ?_, ?_, SameVals_store hnk none, ?_⟩
  · have hsplit : ns = ns.take ((ns.length + 1) / 2) ++ ns.drop ((ns.length + 1) / 2) :=
      (List.take_append_drop _ _).symm
    have htake : ns.take ((ns.length + 1) / 2)
        = ns.take ((ns.length - 1) / 2) ++ [ns[(ns.length - 1) / 2]] := by
      rw [← hk1, List.take_succ, List.getElem?_eq_getElem hk]
      rfl
    have hl2 : Seg h p (ns.take ((ns.length + 1) / 2) ++ ns.drop ((ns.length + 1) / 2)) none := by
      rw [← hsplit]; exact hl
    obtain ⟨m, hfront, _⟩ := Seg_append.mp hl2
    rw [htake] at hfront ⊢
    have hnd := Linked_nodup hl
    have hnot : ns[(ns.length - 1) / 2] ∉ ns.take ((ns.length - 1) / 2) := by
      have hnd2 : (ns.take ((ns.length + 1) / 2)).Nodup :=
        List.Nodup.sublist (List.take_sublist _ _) hnd
      rw [htake] at hnd2
      intro hmem
      exact (List.nodup_append.mp hnd2).2.2 hmem (List.mem_singleton_self _)
    exact Seg_set_last hfront hnot nk none
  · have hsplit : ns = ns.take ((ns.length + 1) / 2) ++ ns.drop ((ns.length + 1) / 2) :=
      (List.take_append_drop _ _).symm
    have hl2 : Seg h p (ns.take ((ns.length + 1) / 2) ++ ns.drop ((ns.length + 1) / 2)) none := by
      rw [← hsplit]; exact hl
    obtain ⟨m, _, hback⟩ := Seg_append.mp hl2
    have hm : m = nk.next := by
      have e1 := Linked_head hback
      rw [e1, hnkx, List.head?_eq_getElem?, List.getElem?_drop, hk1]
      rfl
    rw [← hm]
    refine Seg_store_of_not_mem _ ?_ hback
    intro hmem
    have hnd := Linked_nodup hl
    have hmem1 : ns[(ns.length - 1) / 2] ∈ ns.take ((ns.length + 1) / 2) := by
      rw [← hk1, List.take_succ, List.getElem?_eq_getElem hk]
      exact List.mem_append_right _ (List.mem_singleton_self _)
    have hnd3 : (ns.take ((ns.length + 1) / 2) ++ ns.drop ((ns.length + 1) / 2)).Nodup := by
      rw [← hsplit]; exact hnd
    exact (List.nodup_append.mp hnd3).2.2 hmem1 hmem
  · intro x hx
    apply store_other
    intro e
    exact hx (e ▸ List.getElem_mem _)

/-! ## Function `sorted_merge` -/

theorem get_tail_next_congr {h h1 : Heap} {d d1 : Option Ptr} {tail : TailRef}
    (hd : tail = TailRef.dummy → d1 = d) (hh : ∀ t, tail = TailRef.node t → h1 t = h t) :
    get_tail_next h1 d1 tail = get_tail_next h d tail := by
  cases tail with
  | dummy => simp only [get_tail_next, hd rfl]
  | node t => simp only [get_tail_next, hh t rfl]

theorem set_tail_next_spec {h : Heap} {d e0 : Option Ptr} {tail : TailRef}
    (htn : get_tail_next h d tail = some e0) (v : Option Ptr) :
    ∃ h1 d1, set_tail_next h d v tail = some (h1, d1)
      ∧ get_tail_next h1 d1 tail = some v
      ∧ (∀ y, TailRef.node y ≠ tail → h1 y = h y)
      ∧ SameVals h h1 ∧ (tail ≠ TailRef.dummy → d1 = d) := by
  cases tail with
  | dummy =>
    exact ⟨h, v, rfl, rfl, fun _ _ => rfl, SameVals_refl h, fun hne => absurd rfl hne⟩
  | node t =>
    cases ht : h t with
    | none => simp [get_tail_next, ht] at htn
    | some nt =>
      refine ⟨store h t (some { nt with next := v }), d, ?_, ?_, ?_, SameVals_store ht v,
        fun _ => rfl⟩
      · simp only [set_tail_next, ht]
      · simp only [get_tail_next, store_same]
      · intro y hy
        apply store_other
        intro e
        exact hy (e ▸ rfl)

theorem merge_step_spec {h : Heap} {d : Option Ptr} {tail : TailRef} {x : Ptr}
    {nx : list_ele_t} (htn : get_tail_next h d tail = some none) (hx : h x = some nx)
    (hne : TailRef.node x ≠ tail) :
    ∃ h2 d2, merge_step h d tail (some x) = some (h2, d2, TailRef.node x, nx.next)
      ∧ get_tail_next h2 d2 tail = some (some x)
      ∧ h2 x = some { nx with next := none }
      ∧ (∀ y, y ≠ x → TailRef.node y ≠ tail → h2 y = h y)
      ∧ SameVals h h2 ∧ (tail ≠ TailRef.dummy → d2 = d) := by
  have htn1 : get_tail_next (store h x (some { nx with next := none })) d tail = some none := by
    rw [← htn]
    apply get_tail_next_congr (fun _ => rfl)
    intro t ht
    apply store_other
    intro e
    exact hne (by rw [ht, e])
  obtain ⟨h2, d2, hset, hget, hframe, hsv, hd⟩ := set_tail_next_spec htn1 (some x)
  refine ⟨h2, d2, ?_, hget, ?_, ?_, SameVals_trans (SameVals_store hx none) hsv, hd⟩
  · simp only [merge_step, htn, move_node, hx, hset, hget]
  · rw [hframe x hne, store_same]
  · intro y hyx hyt
    rw [hframe y hyt, store_other _ _ _ _ hyx]

theorem merge_nodes_nil_left (key : Ptr → List Nat) (ys : List Ptr) :
    merge_nodes key [] ys = ys := by
  simp [merge_nodes]

theorem merge_nodes_nil_right (key : Ptr → List Nat) (xs : List Ptr) :
    merge_nodes key xs [] = xs := by
  simp [merge_nodes]

theorem merge_nodes_cons_lt (key : Ptr → List Nat) (x y : Ptr) (xs ys : List Ptr)
    (hlt : strncmp (key x) (key y) (strlen (key y)) < 0) :
    merge_nodes key (x :: xs) (y :: ys) = x :: merge_nodes key xs (y :: ys) := by
  simp only [merge_nodes]
  rw [List.cons_merge_cons_pos]
  simpa using hlt

theorem merge_nodes_cons_ge (key : Ptr → List Nat) (x y : Ptr) (xs ys : List Ptr)
    (hge : ¬ strncmp (key x) (key y) (strlen (key y)) < 0) :
    merge_nodes key (x :: xs) (y :: ys) = y :: merge_nodes key (x :: xs) ys := by
  simp only [merge_nodes]
  rw [List.cons_merge_cons_neg]
  simpa using hge

theorem val_of_node {h : Heap} {x : Ptr} {nx : list_ele_t} (hx : h x = some nx) :
    val h x = nx.value := by
  simp only [val, hx]

theorem Linked_of_tail_next {h : Heap} {d r : Option Ptr} {x : Ptr} {l : List Ptr}
    (hget : get_tail_next h d (TailRef.node x) = some r) (hl : Linked h r l) :
    Linked h (some x) (x :: l) := by
  cases hx : h x with
  | none => simp [get_tail_next, hx] at hget
  | some nx =>
    simp only [get_tail_next, hx, Option.some.injEq] at hget
    exact ⟨rfl, nx, hx, hget ▸ hl⟩

theorem sorted_merge_loop_spec :
    ∀ (fuel : Nat) (h : Heap) (d : Option Ptr) (tail : TailRef) (a b : Option Ptr)
      (xs ys : List Ptr),
      Linked h a xs → Linked h b ys → (∀ x ∈ xs, x ∉ ys) →
      (∀ x ∈ xs, TailRef.node x ≠ tail) → (∀ y ∈ ys, TailRef.node y ≠ tail) →
      get_tail_next h d tail = some none → xs.length + ys.length ≤ fuel → 0 < fuel →
      ∃ h1 d1 r, sorted_merge_loop fuel h d tail a b = some (h1, d1)
        ∧ get_tail_next h1 d1 tail = some r
        ∧ Linked h1 r (merge_nodes (val h) xs ys)
        ∧ SameVals h h1
        ∧ (∀ z, z ∉ xs → z ∉ ys → TailRef.node z ≠ tail → h1 z = h z)
        ∧ (tail ≠ TailRef.dummy → d1 = d) := by
  intro fuel
  induction fuel with
  | zero => intro h d tail a b xs ys _ _ _ _ _ _ _ hpos; omega
  | succ fuel ih =>
    intro h d tail a b xs ys ha hb hdisj hxt hyt htn hf _
    cases xs with
    | nil =>
      have ea : a = none := ha
      subst ea
      obtain ⟨h1, d1, hset, hget, hframe, hsv, hd⟩ := set_tail_next_spec htn b
      refine ⟨h1, d1, b, ?_, hget, ?_, hsv, fun z _ _ hz => hframe z hz, hd⟩
      · simp only [sorted_merge_loop, hset]
      · rw [merge_nodes_nil_left]
        exact Seg_congr (fun y hy => hframe y (hyt y hy)) hb
    | cons x xs =>
      obtain ⟨ea, nx, hx, hxs⟩ := ha
      subst ea
      cases ys with
      | nil =>
        have eb : b = none := hb
        subst eb
        obtain ⟨h1, d1, hset, hget, hframe, hsv, hd⟩ := set_tail_next_spec htn (some x)
        refine ⟨h1, d1, some x, ?_, hget, ?_, hsv, fun z _ _ hz => hframe z hz, hd⟩
        · simp only [sorted_merge_loop, hset]
        · rw [merge_nodes_nil_right]
          exact Seg_congr (fun y hy => hframe y (hxt y hy)) ⟨rfl, nx, hx, hxs⟩
      | cons y ys =>
        obtain ⟨eb, ny, hy, hys⟩ := hb
        subst eb
        have hxnd : x ∉ xs :=
          Linked_not_mem_tail (show Linked h (some x) (x :: xs) from ⟨rfl, nx, hx, hxs⟩)
        have hynd : y ∉ ys :=
          Linked_not_mem_tail (show Linked h (some y) (y :: ys) from ⟨rfl, ny, hy, hys⟩)
        have hxy : x ≠ y := fun e =>
          hdisj x (List.mem_cons_self _ _) (e ▸ List.mem_cons_self _ _)
        by_cases hlt : strncmp nx.value ny.value (strlen ny.value) < 0
        · obtain ⟨h2, d2, hstep, hget2, h2x, hframe2, hsv2, hd2⟩ :=
            merge_step_spec htn hx (hxt x (List.mem_cons_self _ _))
          have hxs2 : Linked h2 nx.next xs := by
            refine Seg_congr ?_ hxs
            intro z hz
            exact hframe2 z (fun e => hxnd (e ▸ hz)) (hxt z (List.mem_cons_of_mem _ hz))
          have hys2 : Linked h2 (some y) (y :: ys) := by
            refine Seg_congr ?_ (show Linked h (some y) (y :: ys) from ⟨rfl, ny, hy, hys⟩)
            intro z hz
            refine hframe2 z (fun e => ?_) (hyt z hz)
            exact hdisj x (List.mem_cons_self _ _) (e ▸ hz)
          have htn2 : get_tail_next h2 d2 (TailRef.node x) = some none := by
            simp only [get_tail_next, h2x]
          obtain ⟨h3, d3, r3, hrun, hget3, hl3, hsv3, hframe3, hd3⟩ :=
            ih h2 d2 (TailRef.node x) nx.next (some y) xs (y :: ys) hxs2 hys2
              (fun z hz => hdisj z (List.mem_cons_of_mem _ hz))
              (fun z hz e => hxnd (by cases e; exact hz))
              (fun z hz e => hdisj x (List.mem_cons_self _ _) (by cases e; exact hz))
              htn2 (by simp only [List.length_cons] at hf ⊢; omega)
              (by simp only [List.length_cons] at hf; omega)
          have hd32 : d3 = d2 := hd3 (by intro e; cases e)
          refine ⟨h3, d3, some x, ?_, ?_, ?_, SameVals_trans hsv2 hsv3, ?_, ?_⟩
          · simp only [sorted_merge_loop, hx, hy, if_pos hlt, hstep]
            exact hrun
          · rw [← hget2]
            apply get_tail_next_congr (fun _ => hd32)
            intro t ht
            have hne : TailRef.node x ≠ tail := hxt x (List.mem_cons_self _ _)
            apply hframe3 t
            · intro hmem
              exact hxt t (List.mem_cons_of_mem _ hmem) ht.symm
            · intro hmem
              exact hyt t hmem ht.symm
            · intro e
              cases e
              exact hne ht.symm
          · rw [merge_nodes_cons_lt _ _ _ _ _ (by rw [val_of_node hx, val_of_node hy]; exact hlt)]
            rw [← SameVals_val hsv2]
            exact Linked_of_tail_next hget3 hl3
          · intro z hzx hzy hzt
            have hz1 : z ≠ x := fun e => hzx (e ▸ List.mem_cons_self _ _)
            rw [hframe3 z (fun hm => hzx (List.mem_cons_of_mem _ hm)) hzy
              (fun e => hz1 (by cases e; rfl))]
            exact hframe2 z hz1 hzt
          · intro hne
            rw [hd32]
            exact hd2 hne
        · obtain ⟨h2, d2, hstep, hget2, h2y, hframe2, hsv2, hd2⟩ :=
            merge_step_spec htn hy (hyt y (List.mem_cons_self _ _))
          have hys2 : Linked h2 ny.next ys := by
            refine Seg_congr ?_ hys
            intro z hz
            exact hframe2 z (fun e => hynd (e ▸ hz)) (hyt z (List.mem_cons_of_mem _ hz))
          have hxs2 : Linked h2 (some x) (x :: xs) := by
            refine Seg_congr ?_ (show Linked h (some x) (x :: xs) from ⟨rfl, nx, hx, hxs⟩)
            intro z hz
            refine hframe2 z (fun e => ?_) (hxt z hz)
            exact hdisj z hz (e ▸ List.mem_cons_self _ _)
          have htn2 : get_tail_next h2 d2 (TailRef.node y) = some none := by
            simp only [get_tail_next, h2y]
          obtain ⟨h3, d3, r3, hrun, hget3, hl3, hsv3, hframe3, hd3⟩ :=
            ih h2 d2 (TailRef.node y) (some x) ny.next (x :: xs) ys hxs2 hys2
              (fun z hz hm => hdisj z hz (List.mem_cons_of_mem _ hm))
              (fun z hz e => hdisj z hz (by cases e; exact List.mem_cons_self _ _))
              (fun z hz e => hynd (by cases e; exact hz))
              htn2 (by simp only [List.length_cons] at hf ⊢; omega)
              (by simp only [List.length_cons] at hf; omega)
          have hd32 : d3 = d2 := hd3 (by intro e; cases e)
          refine ⟨h3, d3, some y, ?_, ?_, ?_, SameVals_trans hsv2 hsv3, ?_, ?_⟩
          · simp only [sorted_merge_loop, hx, hy, if_neg hlt, hstep]
            exact hrun
          · rw [← hget2]
            apply get_tail_next_congr (fun _ => hd32)
            intro t ht
            have hne : TailRef.node y ≠ tail := hyt y (List.mem_cons_self _ _)
            apply hframe3 t
            · intro hmem
              exact hxt t hmem ht.symm
            · intro hmem
              exact hyt t (List.mem_cons_of_mem _ hmem) ht.symm
            · intro e
              cases e
              exact hne ht.symm
          · rw [merge_nodes_cons_ge _ _ _ _ _ (by rw [val_of_node hx, val_of_node hy]; exact hlt)]
            rw [← SameVals_val hsv2]
            exact Linked_of_tail_next hget3 hl3
          · intro z hzx hzy hzt
            have hz1 : z ≠ y := fun e => hzy (e ▸ List.mem_cons_self _ _)
            rw [hframe3 z hzx (fun hm => hzy (List.mem_cons_of_mem _ hm))
              (fun e => hz1 (by cases e; rfl))]
            exact hframe2 z hz1 hzt
          · intro hne
            rw [hd32]
            exact hd2 hne

theorem sorted_merge_spec (fuel : Nat) (h : Heap) (a b : Option Ptr) (xs ys : List Ptr)
    (ha : Linked h a xs) (hb : Linked h b ys) (hdisj : ∀ x ∈ xs, x ∉ ys)
    (hf : xs.length + ys.length < fuel) :
    ∃ h1 r, sorted_merge fuel h a b = some (h1, r)
      ∧ Linked h1 r (merge_nodes (val h) xs ys)
      ∧ SameVals h h1 ∧ (∀ z, z ∉ xs → z ∉ ys → h1 z = h z) := by
  obtain ⟨h1, d1, r, hrun, hget, hl, hsv, hframe, _⟩ :=
    sorted_merge_loop_spec fuel h none TailRef.dummy a b xs ys ha hb hdisj
      (fun _ _ e => by cases e) (fun _ _ e => by cases e) rfl (by omega) (by omega)
  have hr : d1 = r := by
    simpa [get_tail_next] using hget
  subst hr
  exact ⟨h1, d1, hrun, hl, hsv, fun z hx hy => hframe z hx hy (fun e => by cases e)⟩

/-! ## The comparison rule and the merge on lists -/

theorem strncmp_asymm :
    ∀ (n m : Nat) (a b : List Nat), strncmp a b n < 0 → ¬ strncmp b a m < 0 := by
  intro n
  induction n with
  | zero => intro m a b hlt; simp [strncmp] at hlt
  | succ n ih =>
    intro m a b hlt
    cases m with
    | zero => simp [strncmp]
    | succ m =>
      simp only [strncmp] at hlt ⊢
      by_cases hne : a.headD 0 = b.headD 0
      · have hne2 : b.headD 0 = a.headD 0 := hne.symm
        simp only [ne_eq, hne, not_true_eq_false, if_false] at hlt
        simp only [ne_eq, hne2, not_true_eq_false, if_false]
        by_cases hz : a.headD 0 = 0
        · rw [if_pos hz]
          exact lt_irrefl 0
        · have hz2 : ¬ b.headD 0 = 0 := fun e => hz (hne.trans e)
          simp only [hz2, if_false] at hlt
          simp only [hz, if_false]
          exact ih m a.tail b.tail hlt
      · have hne2 : ¬ b.headD 0 = a.headD 0 := fun e => hne e.symm
        simp only [ne_eq, hne, not_false_eq_true, if_true] at hlt
        simp only [ne_eq, hne2, not_false_eq_true, if_true]
        omega

theorem engine_lt_asymm {u v : List Nat} (hlt : engine_lt u v) : ¬ engine_lt v u :=
  strncmp_asymm _ _ u v hlt

theorem head?_merge_nodes (key : Ptr → List Nat) :
    ∀ (xs ys : List Ptr), ∀ m ∈ (merge_nodes key xs ys).head?, m ∈ xs.head? ∨ m ∈ ys.head? := by
  intro xs ys m hm
  cases xs with
  | nil => rw [merge_nodes_nil_left] at hm; exact Or.inr hm
  | cons x xs =>
    cases ys with
    | nil => rw [merge_nodes_nil_right] at hm; exact Or.inl hm
    | cons y ys =>
      by_cases hlt : strncmp (key x) (key y) (strlen (key y)) < 0
      · rw [merge_nodes_cons_lt _ _ _ _ _ hlt] at hm
        exact Or.inl hm
      · rw [merge_nodes_cons_ge _ _ _ _ _ hlt] at hm
        exact Or.inr hm

theorem merge_nodes_sorted (key : Ptr → List Nat) :
    ∀ (xs ys : List Ptr), SortedNodes key xs → SortedNodes key ys →
      SortedNodes key (merge_nodes key xs ys) := by
  intro xs
  induction xs with
  | nil => intro ys _ hy; rw [merge_nodes_nil_left]; exact hy
  | cons x xs ihx =>
    intro ys
    induction ys with
    | nil => intro hx _; rw [merge_nodes_nil_right]; exact hx
    | cons y ys ihy =>
      intro hx hy
      have hx1 := List.chain'_cons'.mp hx
      have hy1 := List.chain'_cons'.mp hy
      by_cases hlt : strncmp (key x) (key y) (strlen (key y)) < 0
      · rw [merge_nodes_cons_lt _ _ _ _ _ hlt]
        refine List.chain'_cons'.mpr ⟨?_, ihx (y :: ys) hx1.2 hy⟩
        intro m hm
        rcases head?_merge_nodes key xs (y :: ys) m hm with h1 | h1
        · exact hx1.1 m h1
        · have : m = y := by simpa using h1.symm
          subst this
          exact engine_lt_asymm hlt
      · rw [merge_nodes_cons_ge _ _ _ _ _ hlt]
        refine List.chain'_cons'.mpr ⟨?_, ihy hx hy1.2⟩
        intro m hm
        rcases head?_merge_nodes key (x :: xs) ys m hm with h1 | h1
        · have : m = x := by simpa using h1.symm
          subst this
          exact hlt
        · exact hy1.1 m h1

theorem merge_nodes_perm (key : Ptr → List Nat) (xs ys : List Ptr) :
    (merge_nodes key xs ys).Perm (xs ++ ys) :=
  List.merge_perm_append _

theorem NonDecreasing_vals (h : Heap) (ns : List Ptr) :
    NonDecreasing (vals h ns) ↔ SortedNodes (val h) ns := by
  simp only [NonDecreasing, vals, SortedNodes]
  exact List.chain'_map (val h)

/-! ## Function `merge_sort` -/

theorem merge_sort_spec :
    ∀ (fuel : Nat) (h : Heap) (p : Option Ptr) (ns : List Ptr),
      Linked h p ns → ns.length < fuel →
      ∃ h1 r ns1, merge_sort fuel h p = some (h1, r) ∧ Linked h1 r ns1 ∧ ns1.Perm ns
        ∧ SortedNodes (val h) ns1 ∧ SameVals h h1 ∧ (∀ z, z ∉ ns → h1 z = h z) := by
  intro fuel
  induction fuel with
  | zero => intro h p ns _ hf; omega
  | succ fuel ih =>
    intro h p ns hl hf
    match ns, hl, hf with
    | [], hl, _ =>
      have ep : p = none := hl
      subst ep
      exact ⟨h, none, [], rfl, rfl, List.Perm.refl _, List.chain'_nil, SameVals_refl h,
        fun _ _ => rfl⟩
    | [x], hl, _ =>
      obtain ⟨ep, nx, hx, hrest⟩ := hl
      subst ep
      have hnx : nx.next = none := hrest
      refine ⟨h, some x, [x], ?_, ⟨rfl, nx, hx, hrest⟩, List.Perm.refl _,
        List.chain'_singleton x, SameVals_refl h, fun _ _ => rfl⟩
      simp only [merge_sort, hx, hnx]
    | x :: y :: rest, hl, hf =>
      have hl0 := hl
      obtain ⟨ep, nx, hx, hrest⟩ := hl
      subst ep
      have hnx : nx.next = some y := hrest.1
      obtain ⟨h1, b, hsplit, hfront, hback, hsv1, hframe1⟩ :=
        front_back_split_spec h (some x) (x :: y :: rest) hl0 (by simp) (fuel + 1)
          (by omega)
      generalize hk : ((x :: y :: rest).length + 1) / 2 = k at hfront hback
      have hlen : (x :: y :: rest).length = rest.length + 2 := by simp
      have hk1 : 1 ≤ k := by omega
      have hk2 : k < (x :: y :: rest).length := by omega
      have hnd : (List.take k (x :: y :: rest) ++ List.drop k (x :: y :: rest)).Nodup := by
        rw [List.take_append_drop]; exact Linked_nodup hl0
      have hdisj := (List.nodup_append.mp hnd).2.2
      obtain ⟨h2, a2, l1, hrun1, hl1, hp1, hs1, hsv2, hframe2⟩ :=
        ih h1 (some x) (List.take k (x :: y :: rest)) hfront
          (by rw [List.length_take]; omega)
      have hback2 : Linked h2 b (List.drop k (x :: y :: rest)) :=
        Seg_congr (fun z hz => hframe2 z (fun hm => hdisj hm hz)) hback
      obtain ⟨h3, b2, l2, hrun2, hl2, hp2, hs2, hsv3, hframe3⟩ :=
        ih h2 b (List.drop k (x :: y :: rest)) hback2
          (by rw [List.length_drop]; omega)
      have hl13 : Linked h3 a2 l1 :=
        Seg_congr (fun z hz => hframe3 z (fun hm => hdisj (hp1.mem_iff.mp hz) hm)) hl1
      have hdisj12 : ∀ z ∈ l1, z ∉ l2 := fun z hz hm =>
        hdisj (hp1.mem_iff.mp hz) (hp2.mem_iff.mp hm)
      have hlen12 : l1.length + l2.length = (x :: y :: rest).length := by
        rw [hp1.length_eq, hp2.length_eq, ← List.length_append, List.take_append_drop]
      obtain ⟨h4, r, hrun3, hl4, hsv4, hframe4⟩ :=
        sorted_merge_spec (fuel + 1) h3 a2 b2 l1 l2 hl13 hl2 hdisj12 (by omega)
      have hv1 : val h1 = val h := SameVals_val hsv1
      have hv2 : val h2 = val h := (SameVals_val hsv2).trans hv1
      have hv3 : val h3 = val h := (SameVals_val hsv3).trans hv2
      refine ⟨h4, r, merge_nodes (val h3) l1 l2, ?_, hl4, ?_, ?_, ?_, ?_⟩
      · simp only [merge_sort, hx, hnx, hsplit, hrun1, hrun2]
        exact hrun3
      · refine (merge_nodes_perm _ l1 l2).trans ?_
        refine (List.Perm.append hp1 hp2).trans ?_
        rw [List.take_append_drop]
      · rw [hv3]
        apply merge_nodes_sorted
        · rw [← hv1]; exact hs1
        · rw [← hv2]; exact hs2
      · exact SameVals_trans (SameVals_trans (SameVals_trans hsv1 hsv2) hsv3) hsv4
      · intro z hz
        have hz1 : z ∉ List.take k (x :: y :: rest) := fun hm => hz (List.mem_of_mem_take hm)
        have hz2 : z ∉ List.drop k (x :: y :: rest) := fun hm => hz (List.mem_of_mem_drop hm)
        rw [hframe4 z (fun hm => hz1 (hp1.mem_iff.mp hm)) (fun hm => hz2 (hp2.mem_iff.mp hm)),
          hframe3 z hz2, hframe2 z hz1, hframe1 z hz]

/-! ## Function `q_sort` -/

theorem q_sort_tail_loop_spec :
    ∀ (l : List Ptr) (t : Ptr) (fuel : Nat) (h : Heap),
      Linked h (some t) (t :: l) → l.length < fuel →
      q_sort_tail_loop fuel h (some t) = some ((t :: l).getLast?) := by
  intro l
  induction l with
  | nil =>
    intro t fuel h hl hf
    obtain ⟨_, nt, ht, hrest⟩ := hl
    have hnx : nt.next = none := hrest
    obtain ⟨f, rfl⟩ : ∃ f, fuel = f + 1 := ⟨fuel - 1, by omega⟩
    simp only [q_sort_tail_loop, ht, hnx]
    rfl
  | cons u l ih =>
    intro t fuel h hl hf
    obtain ⟨_, nt, ht, hrest⟩ := hl
    have hnx : nt.next = some u := hrest.1
    obtain ⟨f, rfl⟩ : ∃ f, fuel = f + 1 := ⟨fuel - 1, by omega⟩
    have hrec := ih u f h (hnx ▸ hrest) (by simp only [List.length_cons] at hf; omega)
    simp only [q_sort_tail_loop, ht, hnx]
    rw [hrec, List.getLast?_cons_cons]

theorem q_sort_spec (fuel : Nat) (h : Heap) (q : queue_t) (ns : List Ptr)
    (hinv : QInv h q ns) (hf : ns.length < fuel) :
    ∃ h1 q1 ns1, q_sort fuel h (some q) = some (h1, some q1) ∧ QInv h1 q1 ns1
      ∧ ns1.Perm ns ∧ SortedNodes (val h1) ns1 ∧ SameVals h h1 ∧ q1.size = q.size
      ∧ (∀ z, z ∉ ns → h1 z = h z) := by
  obtain ⟨hl, htl, hsz⟩ := hinv
  cases ns with
  | nil =>
    have hh : q.head = none := hl
    refine ⟨h, q, [], ?_, ⟨hl, htl, hsz⟩, List.Perm.refl _, List.chain'_nil, SameVals_refl h,
      rfl, fun _ _ => rfl⟩
    simp only [q_sort, hh]
  | cons x xs =>
    have hh : q.head = some x := hl.1
    obtain ⟨h1, r, ns1, hrun, hl1, hp1, hs1, hsv1, hframe1⟩ :=
      merge_sort_spec fuel h q.head (x :: xs) hl hf
    obtain ⟨t, ht⟩ : ∃ t, (x :: xs).getLast? = some t :=
      ⟨(x :: xs).getLast (by simp), List.getLast?_eq_getLast _ _⟩
    have htmem : t ∈ ns1 := hp1.mem_iff.mpr (List.mem_of_getLast?_eq_some ht)
    obtain ⟨l1, l2, hns1⟩ := List.append_of_mem htmem
    have hsuf : Linked h1 (some t) (t :: l2) := Linked_suffix (hns1 ▸ hl1)
    have hlen : ns1.length = (x :: xs).length := hp1.length_eq
    have hloop := q_sort_tail_loop_spec l2 t fuel h1 hsuf (by
      have : ns1.length = l1.length + (l2.length + 1) := by rw [hns1]; simp
      omega)
    have hlast : (t :: l2).getLast? = ns1.getLast? := by
      rw [hns1, List.getLast?_append_of_ne_nil l1 (List.cons_ne_nil t l2)]
    refine ⟨h1, { q with head := r, tail := ns1.getLast? }, ns1, ?_, ⟨hl1, rfl, ?_⟩, hp1, ?_,
      hsv1, rfl, hframe1⟩
    · rw [hh] at hrun
      have htl1 : q.tail = some t := htl.trans ht
      simp only [q_sort, hh, hrun, htl1, hloop]
      rw [hlast]
    · show q.size = (ns1.length : Int)
      rw [hsz, hlen]
    · rw [SameVals_val hsv1]; exact hs1

theorem QInv_heap2 : QInv heap2 queue2 [1, 2] :=
  ⟨⟨rfl, _, rfl, rfl, _, rfl, rfl⟩, rfl, rfl⟩

/-- C1: for a queue that satisfies the data-model invariants, `q_sort` (given fuel above
the number of nodes) returns, the queue again satisfies the invariants, and the values
read from head to tail are non-decreasing under the engine's comparison rule: for no
adjacent pair `x`, `y` is `strncmp(y, x, strlen(x)) < 0`. -/
theorem q_sort_non_decreasing (fuel : Nat) (h : Heap) (q : queue_t) (ns : List Ptr)
    (hinv : QInv h q ns) (hf : ns.length < fuel) :
    ∃ h1 q1 ns1, q_sort fuel h (some q) = some (h1, some q1) ∧ QInv h1 q1 ns1
      ∧ NonDecreasing (vals h1 ns1) := by
  obtain ⟨h1, q1, ns1, hrun, hinv1, _, hs, _⟩ := q_sort_spec fuel h q ns hinv hf
  exact ⟨h1, q1, ns1, hrun, hinv1, (NonDecreasing_vals h1 ns1).mpr hs⟩

theorem q_sort_non_decreasing_witness :
    QInv heap2 queue2 [1, 2] ∧ [1, 2].length < 3 ∧
      ∃ h1 q1 ns1, q_sort 3 heap2 (some queue2) = some (h1, some q1) ∧ QInv h1 q1 ns1
        ∧ NonDecreasing (vals h1 ns1) :=
  ⟨QInv_heap2, by decide, q_sort_non_decreasing 3 heap2 queue2 [1, 2] QInv_heap2 (by decide)⟩

/-- C2: for a queue that satisfies the data-model invariants, `q_sort` (given fuel above
the number of nodes) returns, the queue again satisfies the invariants, the sequence of
values after sorting is a permutation of the sequence before, and `size` is unchanged. -/
theorem q_sort_perm (fuel : Nat) (h : Heap) (q : queue_t) (ns : List Ptr)
    (hinv : QInv h q ns) (hf : ns.length < fuel) :
    ∃ h1 q1 ns1, q_sort fuel h (some q) = some (h1, some q1) ∧ QInv h1 q1 ns1
      ∧ (vals h1 ns1).Perm (vals h ns) ∧ q1.size = q.size := by
  obtain ⟨h1, q1, ns1, hrun, hinv1, hp, _, hsv, hsz, _⟩ := q_sort_spec fuel h q ns hinv hf
  refine ⟨h1, q1, ns1, hrun, hinv1, ?_, hsz⟩
  rw [SameVals_vals hsv]
  exact hp.map (val h)

theorem q_sort_perm_witness :
    QInv heap2 queue2 [1, 2] ∧ [1, 2].length < 3 ∧
      ∃ h1 q1 ns1, q_sort 3 heap2 (some queue2) = some (h1, some q1) ∧ QInv h1 q1 ns1
        ∧ (vals h1 ns1).Perm (vals heap2 [1, 2]) ∧ q1.size = queue2.size :=
  ⟨QInv_heap2, by decide, q_sort_perm 3 heap2 queue2 [1, 2] QInv_heap2 (by decide)⟩

/-! ## Function `q_reverse` -/

theorem q_reverse_loop_spec :
    ∀ (rest : List Ptr) (fuel : Nat) (h : Heap) (cur prev : Option Ptr) (done : List Ptr),
      Linked h cur rest → Linked h prev done → (∀ x ∈ rest, x ∉ done) → rest.length < fuel →
      ∃ h1, q_reverse_loop fuel h cur prev = some (h1, (rest.reverse ++ done).head?)
        ∧ Linked h1 ((rest.reverse ++ done).head?) (rest.reverse ++ done)
        ∧ SameVals h h1 ∧ (∀ z, z ∉ rest → h1 z = h z) := by
  intro rest
  induction rest with
  | nil =>
    intro fuel h cur prev done hc hp _ hf
    have ec : cur = none := hc
    subst ec
    obtain ⟨f, rfl⟩ : ∃ f, fuel = f + 1 := ⟨fuel - 1, by omega⟩
    have e := Linked_head hp
    refine ⟨h, ?_, ?_, SameVals_refl h, fun _ _ => rfl⟩
    · simp only [q_reverse_loop, List.reverse_nil, List.nil_append, e]
    · simp only [List.reverse_nil, List.nil_append, ← e]
      exact hp
  | cons x rest ih =>
    intro fuel h cur prev done hc hp hdisj hf
    have hxr : x ∉ rest := Linked_not_mem_tail hc
    obtain ⟨ec, nx, hx, hrest⟩ := hc
    subst ec
    obtain ⟨f, rfl⟩ : ∃ f, fuel = f + 1 := ⟨fuel - 1, by omega⟩
    have hxd : x ∉ done := hdisj x (List.mem_cons_self _ _)
    obtain ⟨h1, hrun, hl1, hsv1, hframe1⟩ :=
      ih f (store h x (some { nx with next := prev })) nx.next (some x) (x :: done)
        (Seg_store_of_not_mem _ hxr hrest)
        ⟨rfl, _, store_same _ _ _, Seg_store_of_not_mem _ hxd hp⟩
        (fun z hz hm => by
          rcases List.mem_cons.mp hm with e | hm1
          · exact hxr (e ▸ hz)
          · exact hdisj z (List.mem_cons_of_mem _ hz) hm1)
        (by simp only [List.length_cons] at hf; omega)
    have hrev : (x :: rest).reverse ++ done = rest.reverse ++ x :: done := by
      simp
    rw [hrev]
    refine ⟨h1, ?_, hl1, SameVals_trans (SameVals_store hx prev) hsv1, ?_⟩
    · simp only [q_reverse_loop, hx]
      exact hrun
    · intro z hz
      rw [hframe1 z (fun hm => hz (List.mem_cons_of_mem _ hm))]
      apply store_other
      intro e
      exact hz (e ▸ List.mem_cons_self _ _)

theorem q_reverse_spec (fuel : Nat) (h : Heap) (q : queue_t) (ns : List Ptr)
    (hinv : QInv h q ns) (hf : ns.length < fuel) :
    ∃ h1, q_reverse fuel h (some q)
        = some (h1, some { head := q.tail, tail := q.head, size := q.size })
      ∧ QInv h1 { head := q.tail, tail := q.head, size := q.size } ns.reverse
      ∧ SameVals h h1 ∧ (∀ z, z ∉ ns → h1 z = h z) := by
  obtain ⟨hl, htl, hsz⟩ := hinv
  obtain ⟨h1, hrun, hl1, hsv1, hframe1⟩ :=
    q_reverse_loop_spec ns fuel h q.head none [] hl rfl (fun _ _ hm => by cases hm) hf
  rw [List.append_nil] at hrun hl1
  refine ⟨h1, ?_, ⟨?_, ?_, ?_⟩, hsv1, hframe1⟩
  · simp only [q_reverse, hrun]
  · show Linked h1 q.tail ns.reverse
    rw [htl, ← List.head?_reverse]
    exact hl1
  · show q.head = ns.reverse.getLast?
    rw [List.getLast?_reverse]
    exact Linked_head hl
  · show q.size = (ns.reverse.length : Int)
    rw [List.length_reverse]
    exact hsz

/-! ## Sequences of calls -/

theorem QInv_start (h : Heap) : QInv h { head := none, tail := none, size := 0 } [] :=
  ⟨rfl, rfl, rfl⟩

theorem insert_tails_spec :
    ∀ (items : List (List Nat × Ptr × List Nat)) (h : Heap) (q : queue_t) (ns : List Ptr),
      QInv h q ns → (∀ it ∈ items, it.1.length ≤ it.2.2.length) →
      (items.map fun it => it.2.1).Nodup → (∀ it ∈ items, h it.2.1 = none) →
      ∃ h1 q1, insert_tails h (some q) items = some (items.map fun _ => true, h1, some q1)
        ∧ QInv h1 q1 (ns ++ items.map fun it => it.2.1)
        ∧ vals h1 (ns ++ items.map fun it => it.2.1) = vals h ns ++ items.map fun it => it.1 := by
  intro items
  induction items with
  | nil =>
    intro h q ns hinv _ _ _
    refine ⟨h, q, rfl, ?_, ?_⟩
    · simpa using hinv
    · simp
  | cons it items ih =>
    intro h q ns hinv hlen hnd hfresh
    obtain ⟨s, p, junk⟩ := it
    have hnd1 := List.nodup_cons.mp hnd
    have hp : h p = none := hfresh (s, p, junk) (List.mem_cons_self _ _)
    obtain ⟨h1, q1, hrun, hinv1, hvals1, hframe1⟩ :=
      q_insert_tail_ok h q ns s junk p hinv hp (hlen (s, p, junk) (List.mem_cons_self _ _))
    have hfresh1 : ∀ it ∈ items, h1 it.2.1 = none := by
      intro it hit
      have hit0 : h it.2.1 = none := hfresh it (List.mem_cons_of_mem _ hit)
      rw [hframe1 it.2.1 (fresh_not_mem hinv.1 hit0)]
      · exact hit0
      · intro e
        exact hnd1.1 (List.mem_map.mpr ⟨it, hit, e⟩)
    obtain ⟨h2, q2, hrun2, hinv2, hvals2⟩ :=
      ih h1 q1 (ns ++ [p]) hinv1 (fun it hit => hlen it (List.mem_cons_of_mem _ hit)) hnd1.2
        hfresh1
    refine ⟨h2, q2, ?_, ?_, ?_⟩
    · simp only [insert_tails, hrun, hrun2, List.map_cons]
    · simpa using hinv2
    · rw [hvals1] at hvals2
      simpa using hvals2

theorem remove_heads_spec :
    ∀ (ns : List Ptr) (h : Heap) (q : queue_t) (c : Nat), QInv h q ns →
      ∃ h1, remove_heads ns.length h (some q) c
        = some ((vals h ns).map fun v => (true, head_stores v true c), h1,
            some { head := none, tail := none, size := 0 }) := by
  intro ns
  induction ns with
  | nil =>
    intro h q c hinv
    obtain ⟨hl, htl, hsz⟩ := hinv
    have e1 : q.head = none := hl
    have e2 : q.tail = none := htl
    have e3 : q.size = 0 := hsz
    refine ⟨h, ?_⟩
    cases q
    simp only at e1 e2 e3
    subst e1 e2 e3
    rfl
  | cons x xs ih =>
    intro h q c hinv
    have hxs : x ∉ xs := Linked_not_mem_tail hinv.1
    obtain ⟨nd, q1, ws, hnd, hrun, hinv1, _, _, _, hws⟩ :=
      q_remove_head_ok h q x xs true c hinv
    obtain ⟨h2, hrun2⟩ := ih (store h x none) q1 c hinv1
    have hv : vals (store h x none) xs = vals h xs := by
      apply List.map_congr_left
      intro y hy
      have hyx : y ≠ x := fun e => hxs (by rw [← e]; exact hy)
      simp only [val]
      rw [store_other _ _ _ _ hyx]
    refine ⟨h2, ?_⟩
    rw [hv] at hrun2
    simp only [remove_heads, List.length_cons, hrun, hrun2, hws]
    simp only [vals, List.map_cons, val_of_node hnd]

/-- First in, first out, under the condition that the code misses: when every fresh value
block holds a string at least as long as the value to store (and `malloc` returns
distinct addresses that are not live), the `q_insert_tail` calls all return true, and the
`q_remove_head` calls that follow all return true, store the values in the order of their
insertion, and leave the queue empty. -/
theorem fifo_when_blocks_filled (h0 : Heap) (items : List (List Nat × Ptr × List Nat))
    (c : Nat) (hlen : ∀ it ∈ items, it.1.length ≤ it.2.2.length)
    (hnd : (items.map fun it => it.2.1).Nodup) (hfresh : ∀ it ∈ items, h0 it.2.1 = none) :
    ∃ h1 q1 h2, insert_tails h0 (q_new true) items = some (items.map fun _ => true, h1, some q1)
      ∧ remove_heads items.length h1 (some q1) c
        = some (items.map fun it => (true, head_stores it.1 true c), h2,
            some { head := none, tail := none, size := 0 }) := by
  obtain ⟨h1, q1, hrun, hinv1, hvals1⟩ :=
    insert_tails_spec items h0 _ [] (QInv_start h0) hlen hnd hfresh
  obtain ⟨h2, hrun2⟩ := remove_heads_spec _ h1 q1 c hinv1
  refine ⟨h1, q1, h2, hrun, ?_⟩
  simp only [List.nil_append] at hrun2 hvals1
  simp only [List.length_map] at hrun2
  rw [hrun2, hvals1]
  simp [vals]

/-! ## Reversal, twice -/

theorem heap_eq_of_Linked {h h2 : Heap} {p : Option Ptr} {ns : List Ptr}
    (hl : Linked h p ns) (hl2 : Linked h2 p ns) (hsv : SameVals h h2)
    (hframe : ∀ z, z ∉ ns → h2 z = h z) : h2 = h := by
  funext z
  by_cases hz : z ∈ ns
  · obtain ⟨j, hj, rfl⟩ := List.getElem_of_mem hz
    obtain ⟨nd, hnd, hnx⟩ := Linked_getElem hl j hj
    obtain ⟨nd2, hnd2, hnx2⟩ := Linked_getElem hl2 j hj
    have hv := hsv ns[j]
    rw [hnd, hnd2] at hv
    simp only [Option.map_some', Option.some.injEq] at hv
    rw [hnd, hnd2]
    cases nd
    cases nd2
    simp only at hv hnx hnx2
    rw [hv, hnx, hnx2]
  · exact hframe z hz

/-- C11: on a queue that satisfies the data-model invariants, `q_reverse` applied twice
(given fuel above the number of nodes) returns both times and restores the heap and the
queue exactly: the same nodes in the same order with the same values and `next` fields,
the same `head` and `tail` nodes, the same `size`. -/
theorem q_reverse_twice (fuel : Nat) (h : Heap) (q : queue_t) (ns : List Ptr)
    (hinv : QInv h q ns) (hf : ns.length < fuel) :
    ∃ h1 q1, q_reverse fuel h (some q) = some (h1, some q1)
      ∧ QInv h1 q1 ns.reverse
      ∧ q_reverse fuel h1 (some q1) = some (h, some q) := by
  obtain ⟨h1, hrun1, hinv1, hsv1, hframe1⟩ := q_reverse_spec fuel h q ns hinv hf
  obtain ⟨h2, hrun2, hinv2, hsv2, hframe2⟩ :=
    q_reverse_spec fuel h1 _ ns.reverse hinv1 (by rw [List.length_reverse]; exact hf)
  rw [List.reverse_reverse] at hinv2
  have hl2 : Linked h2 q.head ns := hinv2.1
  have heq : h2 = h := by
    refine heap_eq_of_Linked hinv.1 hl2 (SameVals_trans hsv1 hsv2) ?_
    intro z hz
    rw [hframe2 z (fun hm => hz (List.mem_reverse.mp hm)), hframe1 z hz]
  refine ⟨h1, _, hrun1, hinv1, ?_⟩
  rw [hrun2, heq]

theorem q_reverse_twice_witness :
    QInv heap2 queue2 [1, 2] ∧ [1, 2].length < 3 ∧
      ∃ h1 q1, q_reverse 3 heap2 (some queue2) = some (h1, some q1)
        ∧ QInv h1 q1 [1, 2].reverse
        ∧ q_reverse 3 h1 (some q1) = some (heap2, some queue2) :=
  ⟨QInv_heap2, by decide, q_reverse_twice 3 heap2 queue2 [1, 2] QInv_heap2 (by decide)⟩

/-- C12: on a queue that satisfies the data-model invariants and holds the nodes `ns`,
`q_reverse` (given fuel above the number of nodes) returns and leaves the queue holding
the same nodes in reversed order, every node with the value it had, `head` being the old
`tail`, `tail` the old `head`, and `size` unchanged; on an empty queue the heap and the
queue are unchanged, and on an absent queue nothing changes. -/
theorem q_reverse_reverses (fuel : Nat) (h : Heap) (q : queue_t) (ns : List Ptr)
    (hinv : QInv h q ns) (hf : ns.length < fuel) :
    ∃ h1 q1, q_reverse fuel h (some q) = some (h1, some q1)
      ∧ QInv h1 q1 ns.reverse
      ∧ vals h1 ns.reverse = (vals h ns).reverse
      ∧ (∀ x, val h1 x = val h x)
      ∧ q1.head = q.tail ∧ q1.tail = q.head ∧ q1.size = q.size
      ∧ (ns = [] → h1 = h ∧ q1 = q)
      ∧ q_reverse fuel h none = some (h, none) := by
  obtain ⟨h1, hrun1, hinv1, hsv1, hframe1⟩ := q_reverse_spec fuel h q ns hinv hf
  refine ⟨h1, _, hrun1, hinv1, ?_, fun x => congrFun (SameVals_val hsv1) x, rfl, rfl, rfl, ?_,
    rfl⟩
  · rw [SameVals_vals hsv1]
    simp [vals]
  · intro hns
    subst hns
    have e1 : q.head = none := hinv.1
    have e2 : q.tail = none := hinv.2.1
    constructor
    · exact heap_eq_of_Linked hinv.1 (by rw [e1, ← e2]; exact hinv1.1) hsv1 hframe1
    · cases q
      simp only at e1 e2
      subst e1 e2
      rfl

theorem q_reverse_reverses_witness :
    QInv heap2 queue2 [1, 2] ∧ [1, 2].length < 3 ∧
      ∃ h1 q1, q_reverse 3 heap2 (some queue2) = some (h1, some q1)
        ∧ QInv h1 q1 [1, 2].reverse
        ∧ vals h1 [1, 2].reverse = (vals heap2 [1, 2]).reverse
        ∧ (∀ x, val h1 x = val heap2 x)
        ∧ q1.head = queue2.tail ∧ q1.tail = queue2.head ∧ q1.size = queue2.size
        ∧ ([1, 2] = [] → h1 = heap2 ∧ q1 = queue2)
        ∧ q_reverse 3 heap2 none = some (heap2, none) :=
  ⟨QInv_heap2, by decide, q_reverse_reverses 3 heap2 queue2 [1, 2] QInv_heap2 (by decide)⟩

/-! ## Splitting and merging, as the sort uses them -/

/-- C15: on a chain of `n ≥ 1` nodes, `front_back_split` (given fuel `n`) returns a front
chain that starts at the original first node and a back chain; the front chain has
`(n + 1) / 2` nodes (the upper half), the back chain has `n / 2` nodes, both end at the
null pointer, the front followed by the back is the original sequence of nodes, and the
values of the nodes are unchanged. -/
theorem front_back_split_halves (fuel : Nat) (h : Heap) (p : Option Ptr) (ns : List Ptr)
    (hl : Linked h p ns) (hne : ns ≠ []) (hf : ns.length ≤ fuel) :
    ∃ h1 b front back, front_back_split fuel h p = some (h1, p, b)
      ∧ Linked h1 p front ∧ Linked h1 b back
      ∧ front.length = (ns.length + 1) / 2 ∧ back.length = ns.length / 2
      ∧ front ++ back = ns ∧ SameVals h h1 := by
  obtain ⟨h1, b, hrun, hfront, hback, hsv, _⟩ := front_back_split_spec h p ns hl hne fuel hf
  refine ⟨h1, b, _, _, hrun, hfront, hback, ?_, ?_, List.take_append_drop _ _, hsv⟩
  · rw [List.length_take]; omega
  · rw [List.length_drop]; omega

theorem front_back_split_halves_witness :
    Linked heap2 (some 1) [1, 2] ∧ ([1, 2] : List Ptr) ≠ [] ∧ [1, 2].length ≤ 2 ∧
    ∃ h1 b front back, front_back_split 2 heap2 (some 1) = some (h1, some 1, b)
      ∧ Linked h1 (some 1) front ∧ Linked h1 b back
      ∧ front.length = ([1, 2].length + 1) / 2 ∧ back.length = [1, 2].length / 2
      ∧ front ++ back = [1, 2] ∧ SameVals heap2 h1 :=
  ⟨QInv_heap2.1, by decide, by decide,
    front_back_split_halves 2 heap2 (some 1) [1, 2] QInv_heap2.1 (by decide) (by decide)⟩

theorem merge_nodes_cons_cons (key : Ptr → List Nat) (x y : Ptr) (xs ys : List Ptr) :
    merge_nodes key (x :: xs) (y :: ys)
      = if engine_lt (key x) (key y) then x :: merge_nodes key xs (y :: ys)
        else y :: merge_nodes key (x :: xs) ys := by
  by_cases hlt : engine_lt (key x) (key y)
  · rw [merge_nodes_cons_lt _ _ _ _ _ hlt, if_pos hlt]
  · rw [merge_nodes_cons_ge _ _ _ _ _ hlt, if_neg hlt]

theorem merge_nodes_sublist (key : Ptr → List Nat) :
    ∀ (xs ys : List Ptr),
      xs.Sublist (merge_nodes key xs ys) ∧ ys.Sublist (merge_nodes key xs ys) := by
  intro xs
  induction xs with
  | nil =>
    intro ys
    rw [merge_nodes_nil_left]
    exact ⟨List.nil_sublist _, List.Sublist.refl _⟩
  | cons x xs ihx =>
    intro ys
    induction ys with
    | nil =>
      rw [merge_nodes_nil_right]
      exact ⟨List.Sublist.refl _, List.nil_sublist _⟩
    | cons y ys ihy =>
      rw [merge_nodes_cons_cons]
      split
      · exact ⟨(ihx (y :: ys)).1.cons₂ x, (ihx (y :: ys)).2.cons x⟩
      · exact ⟨ihy.1.cons y, ihy.2.cons₂ y⟩

/-- C16: `sorted_merge` on two non-empty disjoint chains (given fuel above the number of
nodes) returns the chain of the list merge `merge_nodes`, in which at every step with
both inputs non-empty the next node is the front node of `a` iff its value is strictly
less than the value of the front node of `b` under the engine's comparison, and the front
node of `b` otherwise (so `b` comes first when the two values compare equal); the nodes
of each input keep their relative order in the output. -/
theorem sorted_merge_takes (fuel : Nat) (h : Heap) (a b : Option Ptr) (x y : Ptr)
    (xs ys : List Ptr) (ha : Linked h a (x :: xs)) (hb : Linked h b (y :: ys))
    (hdisj : ∀ z ∈ x :: xs, z ∉ y :: ys)
    (hf : (x :: xs).length + (y :: ys).length < fuel) :
    ∃ h1 r, sorted_merge fuel h a b = some (h1, r)
      ∧ Linked h1 r (merge_nodes (val h) (x :: xs) (y :: ys)) ∧ SameVals h h1
      ∧ (∀ u v us vs, merge_nodes (val h) (u :: us) (v :: vs)
          = if engine_lt (val h u) (val h v) then u :: merge_nodes (val h) us (v :: vs)
            else v :: merge_nodes (val h) (u :: us) vs)
      ∧ (x :: xs).Sublist (merge_nodes (val h) (x :: xs) (y :: ys))
      ∧ (y :: ys).Sublist (merge_nodes (val h) (x :: xs) (y :: ys)) := by
  obtain ⟨h1, r, hrun, hl, hsv, _⟩ :=
    sorted_merge_spec fuel h a b (x :: xs) (y :: ys) ha hb hdisj hf
  exact ⟨h1, r, hrun, hl, hsv, fun u v us vs => merge_nodes_cons_cons _ u v us vs,
    (merge_nodes_sublist _ _ _).1, (merge_nodes_sublist _ _ _).2⟩

theorem sorted_merge_takes_witness :
    Linked heap_tie (some 1) [1] ∧ Linked heap_tie (some 2) [2]
      ∧ (∀ z ∈ [1], z ∉ [2]) ∧ [1].length + [2].length < 3 ∧
    ∃ h1 r, sorted_merge 3 heap_tie (some 1) (some 2) = some (h1, r)
      ∧ Linked h1 r (merge_nodes (val heap_tie) [1] [2]) ∧ SameVals heap_tie h1
      ∧ (∀ u v us vs, merge_nodes (val heap_tie) (u :: us) (v :: vs)
          = if engine_lt (val heap_tie u) (val heap_tie v)
            then u :: merge_nodes (val heap_tie) us (v :: vs)
            else v :: merge_nodes (val heap_tie) (u :: us) vs)
      ∧ [1].Sublist (merge_nodes (val heap_tie) [1] [2])
      ∧ [2].Sublist (merge_nodes (val heap_tie) [1] [2]) :=
  ⟨⟨rfl, _, rfl, rfl⟩, ⟨rfl, _, rfl, rfl⟩, by decide, by decide,
    sorted_merge_takes 3 heap_tie (some 1) (some 2) 1 2 [] [] ⟨rfl, _, rfl, rfl⟩
      ⟨rfl, _, rfl, rfl⟩ (by decide) (by decide)⟩

/-! ## Termination of the sort -/

theorem sorted_merge_returns (fuel : Nat) (h : Heap) (a b : Option Ptr) (xs ys : List Ptr)
    (ha : Linked h a xs) (hb : Linked h b ys) (hdisj : ∀ x ∈ xs, x ∉ ys)
    (hf : xs.length + ys.length ≤ fuel) (hpos : 0 < fuel) :
    ∃ r, sorted_merge fuel h a b = some r := by
  obtain ⟨h1, d1, _, hrun, _⟩ :=
    sorted_merge_loop_spec fuel h none TailRef.dummy a b xs ys ha hb hdisj
      (fun _ _ e => by cases e) (fun _ _ e => by cases e) rfl hf hpos
  exact ⟨(h1, d1), hrun⟩

/-- C19: on a chain of `n` nodes that ends at the null pointer, `merge_sort` returns for
every fuel above `n`. When `n ≥ 2`, `front_back_split` returns within `n` iterations of
its loop, and both halves are non-empty and strictly shorter than `n`; `sorted_merge` on
two disjoint chains of `n ≥ 1` nodes in total returns within `n` iterations of its
loop. -/
theorem merge_sort_terminates (h : Heap) (p : Option Ptr) (ns : List Ptr)
    (hl : Linked h p ns) :
    (∀ fuel, ns.length < fuel → ∃ r, merge_sort fuel h p = some r)
    ∧ (2 ≤ ns.length → ∃ h1 b front back,
        front_back_split ns.length h p = some (h1, p, b)
        ∧ Linked h1 p front ∧ Linked h1 b back ∧ front ++ back = ns
        ∧ 0 < front.length ∧ front.length < ns.length
        ∧ 0 < back.length ∧ back.length < ns.length)
    ∧ (∀ (h1 : Heap) (a b : Option Ptr) (xs ys : List Ptr), Linked h1 a xs → Linked h1 b ys →
        (∀ x ∈ xs, x ∉ ys) → xs.length + ys.length = ns.length → 1 ≤ ns.length →
        ∃ r, sorted_merge ns.length h1 a b = some r) := by
  refine ⟨?_, ?_, ?_⟩
  · intro fuel hf
    obtain ⟨h1, r, _, hrun, _⟩ := merge_sort_spec fuel h p ns hl hf
    exact ⟨(h1, r), hrun⟩
  · intro hn
    have hne : ns ≠ [] := by
      intro e
      rw [e] at hn
      simp at hn
    obtain ⟨h1, b, hrun, hfront, hback, _, _⟩ :=
      front_back_split_spec h p ns hl hne ns.length (Nat.le_refl _)
    refine ⟨h1, b, _, _, hrun, hfront, hback, List.take_append_drop _ _, ?_, ?_, ?_, ?_⟩
    · rw [List.length_take]; omega
    · rw [List.length_take]; omega
    · rw [List.length_drop]; omega
    · rw [List.length_drop]; omega
  · intro h1 a b xs ys ha hb hdisj hlen hn
    exact sorted_merge_returns ns.length h1 a b xs ys ha hb hdisj (by omega) (by omega)

theorem merge_sort_terminates_witness :
    Linked heap2 (some 1) [1, 2] ∧
    ((∀ fuel, [1, 2].length < fuel → ∃ r, merge_sort fuel heap2 (some 1) = some r)
    ∧ (2 ≤ [1, 2].length → ∃ h1 b front back,
        front_back_split [1, 2].length heap2 (some 1) = some (h1, some 1, b)
        ∧ Linked h1 (some 1) front ∧ Linked h1 b back ∧ front ++ back = [1, 2]
        ∧ 0 < front.length ∧ front.length < [1, 2].length
        ∧ 0 < back.length ∧ back.length < [1, 2].length)
    ∧ (∀ (h1 : Heap) (a b : Option Ptr) (xs ys : List Ptr), Linked h1 a xs → Linked h1 b ys →
        (∀ x ∈ xs, x ∉ ys) → xs.length + ys.length = [1, 2].length → 1 ≤ [1, 2].length →
        ∃ r, sorted_merge [1, 2].length h1 a b = some r)) :=
  ⟨QInv_heap2.1, merge_sort_terminates heap2 (some 1) [1, 2] QInv_heap2.1⟩

/-! ## Insertion at the head followed by removal -/

theorem store_store_none {h : Heap} {p : Ptr} (hp : h p = none) (v : Option list_ele_t) :
    store (store h p v) p none = h := by
  funext z
  by_cases hz : z = p
  · subst hz
    rw [store_same, hp]
  · rw [store_other _ _ _ _ hz, store_other _ _ _ _ hz]

/-- C20: on a queue that satisfies the data-model invariants, when `q_insert_head` of `s`
returns true (the node address returned by `malloc` not being live), the `q_remove_head`
that follows with a supplied buffer of capacity `c ≥ len s + 1` returns true, leaves `s`
and its terminator in the buffer, and restores the heap and the queue exactly: the same
nodes and values, the same `head`, `tail` and `size`. -/
theorem insert_head_remove_head (h : Heap) (q : queue_t) (ns : List Ptr) (s : List Nat)
    (node : Option Ptr) (buf : Option (List Nat)) (h1 : Heap) (q1 : Option queue_t) (c : Nat)
    (hinv : QInv h q ns) (hfresh : ∀ p, node = some p → h p = none)
    (hins : q_insert_head h (some q) s node buf = some (true, h1, q1))
    (hc : s.length + 1 ≤ c) (hc64 : c < 2 ^ 64) :
    ∃ ws, q_remove_head h1 q1 true c = some (true, h, some q, ws)
      ∧ ∀ b : List Nat, c ≤ b.length → pokeAll b ws = s ++ 0 :: b.drop (s.length + 1) := by
  cases node with
  | none => simp [q_insert_head] at hins
  | some p =>
    cases buf with
    | none => simp [q_insert_head] at hins
    | some junk =>
      by_cases hlen : junk.length < s.length
      · rw [q_insert_head_short h q s junk p hlen] at hins
        simp at hins
      · have hp : h p = none := hfresh p rfl
        obtain ⟨q2, hrun, hinv2, hhead2, hsize2, htail2⟩ :=
          q_insert_head_ok h q ns s junk p hinv hp (by omega)
        rw [hrun] at hins
        simp only [Option.some.injEq, Prod.mk.injEq, true_and] at hins
        obtain ⟨e1, e2⟩ := hins
        subst e1 e2
        obtain ⟨nd, q3, ws, hnd, hrun3, _, hhead3, hsize3, htail3, hws⟩ :=
          q_remove_head_ok _ q2 p ns true c hinv2
        rw [store_same] at hnd
        have end_ : nd = { value := s, next := q.head } := (Option.some.inj hnd).symm
        subst end_
        have hq3 : q3 = q := by
          have t1 : q3.tail = q.tail := by
            rw [htail3, htail2]
            by_cases hns : ns = []
            · subst hns
              simp only [if_true]
              exact hinv.2.1.symm
            · simp only [hns, if_false]
          have s1 : q3.size = q.size := by
            rw [hsize3, hsize2]; ring
          cases q3
          cases q
          simp only at hhead3 t1 s1
          rw [hhead3, t1, s1]
        refine ⟨ws, ?_, ?_⟩
        · rw [hrun3, store_store_none hp, hq3]
        · intro b hb
          rw [hws, pokeAll_head_stores s b c (by omega) hc64 hb]
          have hmin : min s.length (c - 1) = s.length := by omega
          rw [hmin, List.take_length]

theorem insert_head_remove_head_witness :
    QInv heap2 queue2 [1, 2] ∧ (∀ p, (some 3 : Option Ptr) = some p → heap2 p = none)
    ∧ q_insert_head heap2 (some queue2) str_cherry (some 3) (some filled)
        = some (true, store heap2 3 (some { value := str_cherry, next := some 1 }),
            some { head := some 3, tail := some 2, size := 3 })
    ∧ str_cherry.length + 1 ≤ 8 ∧ 8 < 2 ^ 64 ∧
    ∃ ws, q_remove_head (store heap2 3 (some { value := str_cherry, next := some 1 }))
          (some { head := some 3, tail := some 2, size := 3 }) true 8
          = some (true, heap2, some queue2, ws)
      ∧ ∀ b : List Nat, 8 ≤ b.length →
          pokeAll b ws = str_cherry ++ 0 :: b.drop (str_cherry.length + 1) :=
  ⟨QInv_heap2, fun p hp => by cases hp; rfl, rfl, by decide, by norm_num,
    insert_head_remove_head heap2 queue2 [1, 2] str_cherry (some 3) (some filled) _ _ 8
      QInv_heap2 (fun p hp => by cases hp; rfl) rfl (by decide) (by norm_num)⟩

/-! ## The engine's comparison and the full comparison -/

theorem strncmp_lt_iff_strcmp_lt :
    ∀ (b a : List Nat), strncmp a b b.length < 0 ↔ strcmp a b < 0 := by
  intro b
  induction b with
  | nil =>
    intro a
    cases a with
    | nil => simp [strncmp, strcmp]
    | cons x xs => simp [strncmp, strcmp]
  | cons y ys ih =>
    intro a
    cases a with
    | nil =>
      simp only [List.length_cons, strncmp, strcmp, List.headD_nil, List.headD_cons]
      by_cases hy : (0 : Nat) = y
      · subst hy
        simp
      · simp only [ne_eq, hy, not_false_eq_true, if_true]
        simp
    | cons x xs =>
      simp only [List.length_cons, strncmp, strcmp, List.headD_cons, List.tail_cons]
      by_cases hxy : x = y
      · subst hxy
        simp only [ne_eq, not_true_eq_false, if_false]
        by_cases hx : x = 0
        · simp only [hx, if_true]
        · simp only [hx, if_false]
          exact ih xs
      · simp only [ne_eq, hxy, not_false_eq_true, if_true]

theorem engine_lt_iff_strcmp (a b : List Nat) : engine_lt a b ↔ strcmp a b < 0 :=
  strncmp_lt_iff_strcmp_lt b a

theorem engine_lt_iff_lex :
    ∀ (b a : List Nat), NulFree b → (engine_lt a b ↔ List.Lex (· < ·) a b) := by
  intro b
  induction b with
  | nil =>
    intro a _
    simp only [engine_lt, strlen, List.length_nil, strncmp]
    constructor
    · intro hlt
      exact absurd hlt (lt_irrefl 0)
    · intro hlex
      exact absurd hlex (List.Lex.not_nil_right _ _)
  | cons y ys ih =>
    intro a hb
    have hy : y ≠ 0 := hb y (List.mem_cons_self _ _)
    have hys : NulFree ys := fun c hc => hb c (List.mem_cons_of_mem _ hc)
    cases a with
    | nil =>
      simp only [engine_lt, strlen, List.length_cons, strncmp, List.headD_nil, List.headD_cons]
      have h0 : (0 : Nat) ≠ y := fun e => hy e.symm
      simp only [ne_eq, h0, not_false_eq_true, if_true]
      constructor
      · intro _
        exact List.Lex.nil
      · intro _
        have : 0 < y := Nat.pos_of_ne_zero hy
        omega
    | cons x xs =>
      simp only [engine_lt, strlen, List.length_cons, strncmp, List.headD_cons, List.tail_cons]
      by_cases hxy : x = y
      · subst hxy
        simp only [ne_eq, not_true_eq_false, if_false, hy]
        rw [List.Lex.cons_iff]
        exact ih xs hys
      · simp only [ne_eq, hxy, not_false_eq_true, if_true]
        constructor
        · intro hlt
          exact List.Lex.rel (by omega)
        · intro hlex
          cases hlex with
          | cons _ => exact absurd rfl hxy
          | rel hr => omega

theorem lex_le_trans {a b c : List Nat} (hab : ¬ List.Lex (· < ·) b a)
    (hbc : ¬ List.Lex (· < ·) c b) : ¬ List.Lex (· < ·) c a := by
  intro hca
  rcases trichotomous_of (List.Lex (fun x y : Nat => x < y)) a b with h1 | h1 | h1
  · exact hbc (trans_of (List.Lex (fun x y : Nat => x < y)) hca h1)
  · exact hbc (h1 ▸ hca)
  · exact hab h1

theorem lex_le_antisymm {a b : List Nat} (hab : ¬ List.Lex (· < ·) b a)
    (hba : ¬ List.Lex (· < ·) a b) : a = b := by
  rcases trichotomous_of (List.Lex (fun x y : Nat => x < y)) a b with h1 | h1 | h1
  · exact absurd h1 hba
  · exact h1
  · exact absurd h1 hab

/-- C17: on NUL-free byte strings the engine's strict comparison
`strncmp(a, b, strlen(b)) < 0` is irreflexive and transitive, and of two distinct strings
exactly one is strictly less than the other. -/
theorem engine_lt_strict_total (a b c : List Nat) (ha : NulFree a) (hb : NulFree b)
    (hc : NulFree c) :
    ¬ engine_lt a a
      ∧ (engine_lt a b → engine_lt b c → engine_lt a c)
      ∧ (a ≠ b → (engine_lt a b ∧ ¬ engine_lt b a) ∨ (engine_lt b a ∧ ¬ engine_lt a b)) := by
  refine ⟨fun hlt => engine_lt_asymm hlt hlt, ?_, ?_⟩
  · intro hab hbc
    have h1 := (engine_lt_iff_lex b a hb).mp hab
    have h2 := (engine_lt_iff_lex c b hc).mp hbc
    exact (engine_lt_iff_lex c a hc).mpr (trans_of (List.Lex (fun x y : Nat => x < y)) h1 h2)
  · intro hne
    rcases trichotomous_of (List.Lex (fun x y : Nat => x < y)) a b with h1 | h1 | h1
    · have hlt := (engine_lt_iff_lex b a hb).mpr h1
      exact Or.inl ⟨hlt, engine_lt_asymm hlt⟩
    · exact absurd h1 hne
    · have hlt := (engine_lt_iff_lex a b ha).mpr h1
      exact Or.inr ⟨hlt, engine_lt_asymm hlt⟩

theorem engine_lt_strict_total_witness :
    NulFree str_ab ∧ NulFree str_abc ∧ NulFree str_apple ∧
    (¬ engine_lt str_ab str_ab
      ∧ (engine_lt str_ab str_abc → engine_lt str_abc str_apple → engine_lt str_ab str_apple)
      ∧ (str_ab ≠ str_abc → (engine_lt str_ab str_abc ∧ ¬ engine_lt str_abc str_ab)
          ∨ (engine_lt str_abc str_ab ∧ ¬ engine_lt str_ab str_abc))) :=
  ⟨by decide, by decide, by decide,
    engine_lt_strict_total str_ab str_abc str_apple (by decide) (by decide) (by decide)⟩

/-! ## A sorted sequence of values is determined by its multiset -/

theorem NonDecreasing_pairwise {l : List (List Nat)} (hn : ∀ v ∈ l, NulFree v)
    (hc : NonDecreasing l) :
    List.Pairwise (fun x y : List Nat => ¬ List.Lex (fun u v : Nat => u < v) y x) l := by
  have hc1 := List.Chain'.iff_mem.mp hc
  have hc2 : List.Chain' (fun x y : List Nat => ¬ List.Lex (fun u v : Nat => u < v) y x) l := by
    refine hc1.imp ?_
    rintro x y ⟨hx, _, hr⟩ hlex
    exact hr ((engine_lt_iff_lex x y (hn x hx)).mpr hlex)
  haveI : IsTrans (List Nat) (fun x y : List Nat => ¬ List.Lex (fun u v : Nat => u < v) y x) :=
    ⟨fun _ _ _ hab hbc => lex_le_trans hab hbc⟩
  exact List.chain'_iff_pairwise.mp hc2

theorem NonDecreasing_perm_eq {l1 l2 : List (List Nat)} (hp : l1.Perm l2)
    (h1 : NonDecreasing l1) (h2 : NonDecreasing l2) (hn : ∀ v ∈ l1, NulFree v) : l1 = l2 := by
  have hn2 : ∀ v ∈ l2, NulFree v := fun v hv => hn v (hp.mem_iff.mpr hv)
  exact List.Perm.eq_of_sorted (fun a b _ _ hab hba => lex_le_antisymm hab hba)
    (NonDecreasing_pairwise hn h1) (NonDecreasing_pairwise hn2 h2) hp

theorem q_sort_values (fuel : Nat) (h : Heap) (q : queue_t) (ns : List Ptr)
    (hinv : QInv h q ns) (hf : ns.length < fuel) :
    ∃ h1 q1 ns1, q_sort fuel h (some q) = some (h1, some q1) ∧ QInv h1 q1 ns1
      ∧ (vals h1 ns1).Perm (vals h ns) ∧ NonDecreasing (vals h1 ns1)
      ∧ ns1.length = ns.length := by
  obtain ⟨h1, q1, ns1, hrun, hinv1, hp, hs, hsv, _⟩ := q_sort_spec fuel h q ns hinv hf
  refine ⟨h1, q1, ns1, hrun, hinv1, ?_, (NonDecreasing_vals h1 ns1).mpr hs, hp.length_eq⟩
  rw [SameVals_vals hsv]
  exact hp.map (val h)

/-- C13: on a queue of NUL-free values that satisfies the data-model invariants, `q_sort`
applied a second time (given fuel above the number of nodes) leaves the sequence of
values that the first application produced; and when the values are already in
non-decreasing order under the engine's comparison rule, the first application leaves
the sequence of values as it was. -/
theorem q_sort_idempotent (fuel : Nat) (h : Heap) (q : queue_t) (ns : List Ptr)
    (hinv : QInv h q ns) (hnul : ∀ v ∈ vals h ns, NulFree v) (hf : ns.length < fuel) :
    ∃ h1 q1 ns1 h2 q2 ns2, q_sort fuel h (some q) = some (h1, some q1) ∧ QInv h1 q1 ns1
      ∧ q_sort fuel h1 (some q1) = some (h2, some q2) ∧ QInv h2 q2 ns2
      ∧ vals h2 ns2 = vals h1 ns1
      ∧ (NonDecreasing (vals h ns) → vals h1 ns1 = vals h ns) := by
  obtain ⟨h1, q1, ns1, hrun1, hinv1, hp1, hs1, hlen1⟩ := q_sort_values fuel h q ns hinv hf
  obtain ⟨h2, q2, ns2, hrun2, hinv2, hp2, hs2, _⟩ :=
    q_sort_values fuel h1 q1 ns1 hinv1 (by omega)
  have hnul1 : ∀ v ∈ vals h1 ns1, NulFree v := fun v hv => hnul v (hp1.mem_iff.mp hv)
  have hnul2 : ∀ v ∈ vals h2 ns2, NulFree v := fun v hv => hnul1 v (hp2.mem_iff.mp hv)
  refine ⟨h1, q1, ns1, h2, q2, ns2, hrun1, hinv1, hrun2, hinv2, ?_, ?_⟩
  · exact NonDecreasing_perm_eq hp2 hs2 hs1 hnul2
  · intro hs
    exact NonDecreasing_perm_eq hp1 hs1 hs hnul1

theorem q_sort_idempotent_witness :
    QInv heap2 queue2 [1, 2] ∧ (∀ v ∈ vals heap2 [1, 2], NulFree v) ∧ [1, 2].length < 3 ∧
    ∃ h1 q1 ns1 h2 q2 ns2, q_sort 3 heap2 (some queue2) = some (h1, some q1) ∧ QInv h1 q1 ns1
      ∧ q_sort 3 h1 (some q1) = some (h2, some q2) ∧ QInv h2 q2 ns2
      ∧ vals h2 ns2 = vals h1 ns1
      ∧ (NonDecreasing (vals heap2 [1, 2]) → vals h1 ns1 = vals heap2 [1, 2]) :=
  ⟨QInv_heap2, by decide, by decide,
    q_sort_idempotent 3 heap2 queue2 [1, 2] QInv_heap2 (by decide) (by decide)⟩

/-- C18: two queues of NUL-free values that satisfy the data-model invariants and whose
sequences of values are permutations of each other are left by `q_sort` (given fuel above
the number of nodes) with the same sequence of values. -/
theorem q_sort_order_of_multiset (fuel : Nat) (h : Heap) (q : queue_t) (ns : List Ptr)
    (h' : Heap) (q' : queue_t) (ns' : List Ptr)
    (hinv : QInv h q ns) (hinv' : QInv h' q' ns')
    (hperm : (vals h ns).Perm (vals h' ns')) (hnul : ∀ v ∈ vals h ns, NulFree v)
    (hf : ns.length < fuel) :
    ∃ h1 q1 ns1 h1' q1' ns1', q_sort fuel h (some q) = some (h1, some q1) ∧ QInv h1 q1 ns1
      ∧ q_sort fuel h' (some q') = some (h1', some q1') ∧ QInv h1' q1' ns1'
      ∧ vals h1 ns1 = vals h1' ns1' := by
  have hlen : ns'.length = ns.length := by
    have := hperm.length_eq
    simpa [vals] using this.symm
  obtain ⟨h1, q1, ns1, hrun1, hinv1, hp1, hs1, _⟩ := q_sort_values fuel h q ns hinv hf
  obtain ⟨h1', q1', ns1', hrun2, hinv2, hp2, hs2, _⟩ :=
    q_sort_values fuel h' q' ns' hinv' (by omega)
  have hnul1 : ∀ v ∈ vals h1 ns1, NulFree v := fun v hv => hnul v (hp1.mem_iff.mp hv)
  refine ⟨h1, q1, ns1, h1', q1', ns1', hrun1, hinv1, hrun2, hinv2, ?_⟩
  exact NonDecreasing_perm_eq ((hp1.trans hperm).trans hp2.symm) hs1 hs2 hnul1

theorem QInv_heap2r : QInv heap2r queue2r [3, 4] :=
  ⟨⟨rfl, _, rfl, rfl, _, rfl, rfl⟩, rfl, rfl⟩

theorem q_sort_order_of_multiset_witness :
    QInv heap2 queue2 [1, 2] ∧ QInv heap2r queue2r [3, 4]
    ∧ (vals heap2 [1, 2]).Perm (vals heap2r [3, 4]) ∧ (∀ v ∈ vals heap2 [1, 2], NulFree v)
    ∧ [1, 2].length < 3 ∧
    ∃ h1 q1 ns1 h1' q1' ns1', q_sort 3 heap2 (some queue2) = some (h1, some q1)
      ∧ QInv h1 q1 ns1
      ∧ q_sort 3 heap2r (some queue2r) = some (h1', some q1') ∧ QInv h1' q1' ns1'
      ∧ vals h1 ns1 = vals h1' ns1' :=
  ⟨QInv_heap2, QInv_heap2r, List.Perm.swap _ _ _, by decide, by decide,
    q_sort_order_of_multiset 3 heap2 queue2 [1, 2] heap2r queue2r [3, 4] QInv_heap2
      QInv_heap2r (List.Perm.swap _ _ _) (by decide) (by decide)⟩

/-! ## Sorting with the full comparison -/

theorem sorted_merge_loop_strcmp_eq :
    ∀ (fuel : Nat) (h : Heap) (d : Option Ptr) (tail : TailRef) (a b : Option Ptr),
      sorted_merge_loop_strcmp fuel h d tail a b = sorted_merge_loop fuel h d tail a b := by
  intro fuel
  induction fuel with
  | zero => intro h d tail a b; rfl
  | succ fuel ih =>
    intro h d tail a b
    cases a with
    | none => rfl
    | some pa =>
      cases b with
      | none => rfl
      | some pb =>
        cases hpa : h pa with
        | none => simp only [sorted_merge_loop_strcmp, sorted_merge_loop, hpa]
        | some na =>
          cases hpb : h pb with
          | none => simp only [sorted_merge_loop_strcmp, sorted_merge_loop, hpa, hpb]
          | some nb =>
            simp only [sorted_merge_loop_strcmp, sorted_merge_loop, hpa, hpb]
            by_cases hlt : strcmp na.value nb.value < 0
            · have hlt1 : strncmp na.value nb.value (strlen nb.value) < 0 :=
                (strncmp_lt_iff_strcmp_lt _ _).mpr hlt
              rw [if_pos hlt, if_pos hlt1]
              cases merge_step h d tail (some pa) with
              | none => rfl
              | some r =>
                obtain ⟨h2, d2, tail2, a2⟩ := r
                exact ih h2 d2 tail2 a2 (some pb)
            · have hlt1 : ¬ strncmp na.value nb.value (strlen nb.value) < 0 :=
                fun e => hlt ((strncmp_lt_iff_strcmp_lt _ _).mp e)
              rw [if_neg hlt, if_neg hlt1]
              cases merge_step h d tail (some pb) with
              | none => rfl
              | some r =>
                obtain ⟨h2, d2, tail2, b2⟩ := r
                exact ih h2 d2 tail2 (some pa) b2

theorem merge_sort_strcmp_eq :
    ∀ (fuel : Nat) (h : Heap) (p : Option Ptr), merge_sort_strcmp fuel h p = merge_sort fuel h p := by
  intro fuel
  induction fuel with
  | zero => intro h p; rfl
  | succ fuel ih =>
    intro h p
    cases p with
    | none => rfl
    | some x =>
      cases hx : h x with
      | none => simp only [merge_sort_strcmp, merge_sort, hx]
      | some nx =>
        cases hnx : nx.next with
        | none => simp only [merge_sort_strcmp, merge_sort, hx, hnx]
        | some y =>
          simp only [merge_sort_strcmp, merge_sort, hx, hnx]
          cases front_back_split (fuel + 1) h (some x) with
          | none => rfl
          | some r =>
            obtain ⟨h1, a, b⟩ := r
            simp only [ih h1 a]
            cases merge_sort fuel h1 a with
            | none => rfl
            | some r2 =>
              obtain ⟨h2, a2⟩ := r2
              simp only [ih h2 b]
              cases merge_sort fuel h2 b with
              | none => rfl
              | some r3 =>
                obtain ⟨h3, b2⟩ := r3
                exact sorted_merge_loop_strcmp_eq (fuel + 1) h3 none TailRef.dummy a2 b2

theorem q_sort_strcmp_eq (fuel : Nat) (h : Heap) (q : Option queue_t) :
    q_sort_strcmp fuel h q = q_sort fuel h q := by
  cases q with
  | none => rfl
  | some qv =>
    cases hh : qv.head with
    | none => simp only [q_sort_strcmp, q_sort, hh]
    | some x =>
      simp only [q_sort_strcmp, q_sort, hh, merge_sort_strcmp_eq]

/-- C14 (the statement fails): there are no two text values, one a proper prefix of the
other, on which the engine's test `strncmp(a, b, strlen(b)) < 0` and the full comparison
`strcmp(a, b) < 0` have different outcomes, in either order of the operands; and there is
no queue on which `q_sort` with the full comparison gives another result than `q_sort`
with the engine's comparison. -/
theorem no_pair_compares_differently :
    (¬ ∃ a t : List Nat, t ≠ [] ∧
        (¬ (engine_lt a (a ++ t) ↔ strcmp a (a ++ t) < 0)
          ∨ ¬ (engine_lt (a ++ t) a ↔ strcmp (a ++ t) a < 0)))
    ∧ ¬ ∃ (fuel : Nat) (h : Heap) (q : Option queue_t),
        q_sort_strcmp fuel h q ≠ q_sort fuel h q := by
  constructor
  · rintro ⟨a, t, _, hd | hd⟩
    · exact hd (engine_lt_iff_strcmp _ _)
    · exact hd (engine_lt_iff_strcmp _ _)
  · rintro ⟨fuel, h, q, hne⟩
    exact hne (q_sort_strcmp_eq fuel h q)

/-- C14 (amended): the engine's test `strncmp(a, b, strlen(b)) < 0` has the same outcome
as the full comparison `strcmp(a, b) < 0` for all text values, also when one is a proper
prefix of the other: "ab" is strictly less than "abc" and "abc" is not strictly less than
"ab" under both, the two functions differing there only in the value they return (0 and
99, neither below 0). Replacing the engine's comparison by the full comparison leaves the
result of `q_sort` unchanged on every queue. -/
theorem engine_test_is_full_comparison :
    (∀ a b : List Nat, engine_lt a b ↔ strcmp a b < 0)
    ∧ (engine_lt str_ab str_abc ∧ strcmp str_ab str_abc < 0)
    ∧ (¬ engine_lt str_abc str_ab ∧ ¬ strcmp str_abc str_ab < 0)
    ∧ strncmp str_abc str_ab (strlen str_ab) = 0 ∧ strcmp str_abc str_ab = 99
    ∧ (∀ (fuel : Nat) (h : Heap) (q : Option queue_t),
        q_sort_strcmp fuel h q = q_sort fuel h q) :=
  ⟨engine_lt_iff_strcmp, ⟨by decide, by decide⟩, ⟨by decide, by decide⟩, by decide, by decide,
    q_sort_strcmp_eq⟩

end Queue
